import Mathlib

/-!
Verification of the Gridcoin wallet transaction engine (`src/wallet/wallet.cpp`)
against its natural-language specification.

The C++ code is shallowly embedded: money values are unbounded `Int`
(the source uses `int64_t`; the only place where the finite bound is
observable, the `coinLowestLarger` sentinel, is modelled explicitly with
`int64Max`), timestamps are `Nat`, and every randomness source
(`FastRandomContext`, `Shuffle`, `GetRandInt`) is an explicit parameter.
Collaborator services that live outside the wallet engine
(`GetBaseFee`, `GetMinFee`, serialization size, script handling, the
crypter) are oracle parameters, as the specification's §6 prescribes.
-/

namespace GridcoinWallet

/-- Maximum value of a signed 64-bit integer, the initial value of
`coinLowestLarger.first` in `CWallet::SelectCoinsMinConf`. -/
def int64Max : Int := 2 ^ 63 - 1

/-- A candidate unspent output as seen by the coin selectors: the fields of
`COutput` (`tx`, `i`, `nDepth`) that the selection code reads, namely the
output value `tx->vout[i].nValue`, the owning transaction's `IsFromMe()`
flag and time `nTime`, and the confirmation depth. -/
structure Candidate where
  value : Int
  fromMe : Bool
  depth : Int
  nTime : Nat
deriving DecidableEq, Repr

/-- Total value of a list of candidates. -/
def sumVals (cs : List Candidate) : Int := (cs.map Candidate.value).sum

/-- The required confirmation depth of a candidate:
`pcoin->IsFromMe() ? nConfMine : nConfTheirs`. -/
def confReq (confMine confTheirs : Int) (c : Candidate) : Int :=
  if c.fromMe then confMine else confTheirs

/-- The per-candidate eligibility test of `SelectCoinsMinConf` and
`SelectSmallestCoins`: the two `continue` guards
`output.nDepth < (pcoin->IsFromMe() ? nConfMine : nConfTheirs)` and
`pcoin->nTime > nSpendTime`, negated. -/
def eligibleB (confMine confTheirs : Int) (spendTime : Nat) (c : Candidate) : Bool :=
  decide (confReq confMine confTheirs c ≤ c.depth) && decide (c.nTime ≤ spendTime)

/-- Sum of the values of all eligible candidates in a list. -/
def eligSum (confMine confTheirs : Int) (spendTime : Nat) (cs : List Candidate) : Int :=
  sumVals (cs.filter (eligibleB confMine confTheirs spendTime))

/-! ### ApproximateBestSubset

The stochastic subset-sum solver (`wallet.cpp`, `ApproximateBestSubset`).
`vfIncluded`/`vfBest` are the two `vector<char>` of the source; the random
bits consumed by `rng.randbool()` on pass 0 are the parameter `rnd`. -/

/-- State of the inner loops of `ApproximateBestSubset`. -/
structure ABSState where
  vfIncluded : List Bool
  nTotal : Int
  reached : Bool
  vfBest : List Bool
  nBest : Int

/-- Sum of the values at the `true` positions of a flag vector (the running
`nTotal` of the source, and the meaning of `nBest` relative to `vfBest`). -/
def sumIncl : List Int → List Bool → Int
  | _, [] => 0
  | [], _ :: _ => 0
  | v :: vs, b :: bs => (if b then v else 0) + sumIncl vs bs

/-- One iteration of the innermost loop of `ApproximateBestSubset`: the body
`if (nPass == 0 ? rng.randbool() : !vfIncluded[i]) { ... }` at index `i`
with value `v = vValue[i].first`. The inclusion condition is abstracted as
`inc` so the same body serves both passes. -/
def absStep (target : Int) (inc : Nat → List Bool → Bool) (i : Nat) (v : Int)
    (st : ABSState) : ABSState :=
  if inc i st.vfIncluded then
    if target ≤ st.nTotal + v then
      { vfIncluded := (st.vfIncluded.set i true).set i false,
        nTotal := st.nTotal + v - v,
        reached := true,
        vfBest := if st.nTotal + v < st.nBest then st.vfIncluded.set i true else st.vfBest,
        nBest := if st.nTotal + v < st.nBest then st.nTotal + v else st.nBest }
    else
      { st with vfIncluded := st.vfIncluded.set i true, nTotal := st.nTotal + v }
  else st

/-- One full pass (`for (unsigned int i = 0; i < vValue.size(); i++)`) over the
values, starting at index `i`. -/
def absPassAux (target : Int) (inc : Nat → List Bool → Bool) :
    Nat → List Int → ABSState → ABSState
  | _, [], st => st
  | i, v :: vs, st => absPassAux target inc (i + 1) vs (absStep target inc i v st)

/-- One repetition of the outer loop of `ApproximateBestSubset`: reset
`vfIncluded`, `nTotal` and `fReachedTarget`, then up to two passes (the second
pass runs only when the first did not reach the target), keeping the incumbent
`(vfBest, nBest)`. -/
def absRep (target : Int) (rnd : Nat → Bool) (vs : List Int) (b : List Bool × Int) :
    List Bool × Int :=
  let st0 : ABSState :=
    { vfIncluded := List.replicate vs.length false, nTotal := 0, reached := false,
      vfBest := b.1, nBest := b.2 }
  let st1 := absPassAux target (fun i _ => rnd i) 0 vs st0
  let st2 := if st1.reached then st1 else absPassAux target (fun i vf => !(vf.getD i false)) 0 vs st1
  (st2.vfBest, st2.nBest)

/-- The outer loop `for (int nRep = 0; nRep < iterations && nBest != nTargetValue; nRep++)`,
with `fuel` the remaining repetitions and `rep` the current repetition index
(used to address the random stream). -/
def absLoop (target : Int) (rng : Nat → Nat → Bool) (vs : List Int) :
    Nat → Nat → (List Bool × Int) → List Bool × Int
  | 0, _, b => b
  | fuel + 1, rep, b =>
    if b.2 ≠ target then absLoop target rng vs fuel (rep + 1) (absRep target (rng rep) vs b)
    else b

/-- `ApproximateBestSubset(vValue, nTotalLower, nTargetValue, vfBest, nBest, iterations)`:
`vfBest` starts all-`true` with `nBest = nTotalLower`. -/
def ApproximateBestSubset (rng : Nat → Nat → Bool) (vs : List Int)
    (nTotalLower target : Int) (iterations : Nat) : List Bool × Int :=
  absLoop target rng vs iterations 0 (List.replicate vs.length true, nTotalLower)

/-- The pair of `ApproximateBestSubset` calls in `SelectCoinsMinConf`: a first
call at the exact target and, when that is inexact and `nTotalLower` admits it,
a second call at `nTargetValue + CENT`. -/
def absFull (rng1 rng2 : Nat → Nat → Bool) (vs : List Int)
    (nTotalLower target cent : Int) : List Bool × Int :=
  let r1 := ApproximateBestSubset rng1 vs nTotalLower target 1000
  if r1.2 ≠ target ∧ target + cent ≤ nTotalLower then
    ApproximateBestSubset rng2 vs nTotalLower (target + cent) 1000
  else r1

/-! ### The scan loop of SelectCoinsMinConf -/

/-- The running state of the scan loop of `SelectCoinsMinConf`:
the `vValue` partition with its running sum `nTotalLower`, and
`coinLowestLarger` as the pair of its `first` value (initially `int64Max`) and
its coin (initially null). -/
structure ScanState where
  vValue : List Candidate
  nTotalLower : Int
  lowLargerVal : Int
  lowLarger : Option Candidate
deriving DecidableEq, Repr

/-- Initial scan state of `SelectCoinsMinConf`. -/
def initScan : ScanState :=
  { vValue := [], nTotalLower := 0, lowLargerVal := int64Max, lowLarger := none }

/-- The candidate scan of `SelectCoinsMinConf` (the `for (auto output : vCoins)`
loop): skip ineligible candidates, return the first exact match (`Sum.inl`),
collect values below `nTargetValue + CENT` into `vValue`, and track the lowest
larger coin; `Sum.inr` is the fall-through state. -/
def scanCoins (cent target : Int) (spendTime : Nat) (confMine confTheirs : Int) :
    List Candidate → ScanState → Candidate ⊕ ScanState
  | [], st => .inr st
  | c :: rest, st =>
    if c.depth < confReq confMine confTheirs c then
      scanCoins cent target spendTime confMine confTheirs rest st
    else if spendTime < c.nTime then
      scanCoins cent target spendTime confMine confTheirs rest st
    else if c.value = target then
      .inl c
    else if c.value < target + cent then
      scanCoins cent target spendTime confMine confTheirs rest
        { st with vValue := st.vValue ++ [c], nTotalLower := st.nTotalLower + c.value }
    else if c.value < st.lowLargerVal then
      scanCoins cent target spendTime confMine confTheirs rest
        { st with lowLargerVal := c.value, lowLarger := some c }
    else
      scanCoins cent target spendTime confMine confTheirs rest st

/-! ### Sorting and subset extraction -/

/-- Insertion of a candidate into a list sorted descending by value
(modelling `sort(vValue.rbegin(), vValue.rend(), CompareValueOnly())`;
ties are broken arbitrarily in the source, so any value-sorted order is a
faithful model). -/
def insertDesc (c : Candidate) : List Candidate → List Candidate
  | [] => [c]
  | d :: ds => if d.value ≤ c.value then c :: d :: ds else d :: insertDesc c ds

/-- Sort a candidate list descending by value. -/
def sortDesc : List Candidate → List Candidate
  | [] => []
  | c :: cs => insertDesc c (sortDesc cs)

/-- Insertion of a candidate into a list sorted ascending by value
(modelling `sort(vCoins.begin(), vCoins.end(), smallestcoincomp())`). -/
def insertAsc (c : Candidate) : List Candidate → List Candidate
  | [] => [c]
  | d :: ds => if c.value ≤ d.value then c :: d :: ds else d :: insertAsc c ds

/-- Sort a candidate list ascending by value. -/
def sortAsc : List Candidate → List Candidate
  | [] => []
  | c :: cs => insertAsc c (sortAsc cs)

/-- The final subset extraction of `SelectCoinsMinConf`:
`for (i...) if (vfBest[i]) setCoinsRet.insert(vValue[i])`. -/
def pickFlags : List Candidate → List Bool → List Candidate
  | [], _ => []
  | _ :: _, [] => []
  | c :: cs, b :: bs => if b then c :: pickFlags cs bs else pickFlags cs bs

/-! ### SelectCoinsMinConf and SelectSmallestCoins -/

/-- The tail of `SelectCoinsMinConf` after the stochastic approximation: if a
larger coin exists and either the approximation missed the target while
staying below `nTargetValue + CENT`, or the larger coin is at most `nBest`,
take the larger coin, else take the approximated subset
(`for (i...) if (vfBest[i]) ...`). `low`/`lowVal` are `coinLowestLarger`,
`r` is `(vfBest, nBest)`. -/
def minConfLarge (cent target lowVal : Int) (low : Option Candidate)
    (vSorted : List Candidate) (r : List Bool × Int) : Option (List Candidate × Int) :=
  match low with
  | some c =>
    if (r.2 ≠ target ∧ r.2 < target + cent) ∨ lowVal ≤ r.2 then
      some ([c], lowVal)
    else
      some (pickFlags vSorted r.1, sumVals (pickFlags vSorted r.1))
  | none =>
    some (pickFlags vSorted r.1, sumVals (pickFlags vSorted r.1))

/-- `CWallet::SelectCoinsMinConf`. The shuffle of `vCoins` and the random
streams of the two `ApproximateBestSubset` calls are explicit parameters;
`cent` is the external constant `CENT`. The result is `none` for `return
false`, and otherwise the pair `(setCoinsRet, nValueRet)`; candidates stand
for the distinct `(const CWalletTx*, unsigned int)` pairs of the source. -/
def SelectCoinsMinConf (cent : Int) (shuffle : List Candidate → List Candidate)
    (rng1 rng2 : Nat → Nat → Bool) (target : Int) (spendTime : Nat)
    (confMine confTheirs : Int) (vCoins : List Candidate) :
    Option (List Candidate × Int) :=
  match scanCoins cent target spendTime confMine confTheirs (shuffle vCoins) initScan with
  | .inl c => some ([c], c.value)
  | .inr st =>
    if st.nTotalLower = target then
      some (st.vValue, sumVals st.vValue)
    else if st.nTotalLower < target then
      match st.lowLarger with
      | none => none
      | some c => some ([c], st.lowLargerVal)
    else
      minConfLarge cent target st.lowLargerVal st.lowLarger (sortDesc st.vValue)
        (absFull rng1 rng2 ((sortDesc st.vValue).map Candidate.value) st.nTotalLower target cent)

/-- The accumulation loop of `CWallet::SelectSmallestCoins` over the
already-sorted candidates, carrying `setCoinsRet` and `nValueRet`. -/
def sscLoop (target : Int) (spendTime : Nat) (confMine confTheirs : Int) :
    List Candidate → List Candidate → Int → Option (List Candidate × Int)
  | [], _, _ => none
  | c :: rest, acc, val =>
    if c.depth < confReq confMine confTheirs c then
      sscLoop target spendTime confMine confTheirs rest acc val
    else if spendTime < c.nTime then
      sscLoop target spendTime confMine confTheirs rest acc val
    else
      let acc' := acc ++ [c]
      let val' := val + c.value
      if target ≤ val' then some (acc', val')
      else sscLoop target spendTime confMine confTheirs rest acc' val'

/-- `CWallet::SelectSmallestCoins`: sort ascending by value, then accept
eligible candidates until the target is met; `none` for `return false`. -/
def SelectSmallestCoins (target : Int) (spendTime : Nat) (confMine confTheirs : Int)
    (vCoins : List Candidate) : Option (List Candidate × Int) :=
  sscLoop target spendTime confMine confTheirs (sortAsc vCoins) [] 0

/-! ### Invariants of ApproximateBestSubset -/

lemma getD_set_ne (l : List Bool) (i j : Nat) (b : Bool) (h : j ≠ i) :
    (l.set i b).getD j false = l.getD j false := by
  simp [List.getD, List.getElem?_set_ne (Ne.symm h)]

lemma set_false_self (l : List Bool) (i : Nat) (h : l.getD i false = false) :
    l.set i false = l := by
  induction l generalizing i with
  | nil => rfl
  | cons a as ih =>
    cases i with
    | zero => rw [List.getD_cons_zero] at h; simp [h]
    | succ k =>
      rw [List.getD_cons_succ] at h
      simp only [List.set]
      rw [ih k h]

lemma sumIncl_set_true (vs : List Int) (vf : List Bool) (i : Nat)
    (hlen : vf.length = vs.length) (hi : i < vs.length)
    (hf : vf.getD i false = false) :
    sumIncl vs (vf.set i true) = sumIncl vs vf + vs.getD i 0 := by
  induction vs generalizing vf i with
  | nil => simp at hi
  | cons v vs ih =>
    match vf, i with
    | [], _ => simp at hlen
    | b :: bs, 0 =>
      rw [List.getD_cons_zero] at hf
      subst hf
      simp [sumIncl, List.set, List.getD_cons_zero]
      ring
    | b :: bs, k + 1 =>
      rw [List.getD_cons_succ] at hf
      simp only [List.length_cons] at hlen hi
      simp only [List.set, sumIncl, List.getD_cons_succ]
      rw [ih bs k (by omega) (by omega) hf]
      ring

lemma sumIncl_replicate_false (vs : List Int) (n : Nat) :
    sumIncl vs (List.replicate n false) = 0 := by
  induction vs generalizing n with
  | nil => cases n <;> simp [sumIncl]
  | cons v vs ih =>
    cases n with
    | zero => simp [sumIncl]
    | succ m => simp [List.replicate, sumIncl, ih]

lemma sumIncl_replicate_true (vs : List Int) :
    sumIncl vs (List.replicate vs.length true) = vs.sum := by
  induction vs with
  | nil => simp [sumIncl]
  | cons v vs ih => simp [List.replicate, sumIncl, ih]

/-- The loop invariant of `ApproximateBestSubset`: `nTotal` is the sum of the
currently included values, `nBest` is the sum of the best subset, and the best
subset never drops below the target. -/
def ABSInv (target : Int) (vs : List Int) (st : ABSState) : Prop :=
  st.vfIncluded.length = vs.length ∧ sumIncl vs st.vfIncluded = st.nTotal ∧
  sumIncl vs st.vfBest = st.nBest ∧ target ≤ st.nBest

lemma absStep_inv (target : Int) (inc : Nat → List Bool → Bool) (i : Nat) (v : Int)
    (vs : List Int) (st : ABSState) (hinv : ABSInv target vs st) (hi : i < vs.length)
    (hv : v = vs.getD i 0)
    (hfalse : inc i st.vfIncluded = true → st.vfIncluded.getD i false = false) :
    ABSInv target vs (absStep target inc i v st) ∧
      ∀ j, j ≠ i →
        (absStep target inc i v st).vfIncluded.getD j false =
          st.vfIncluded.getD j false := by
  obtain ⟨hlen, hsum, hbest, htb⟩ := hinv
  unfold absStep
  by_cases hinc : inc i st.vfIncluded = true
  · have hf := hfalse hinc
    have hset : sumIncl vs (st.vfIncluded.set i true) = st.nTotal + v := by
      rw [sumIncl_set_true vs st.vfIncluded i hlen hi hf, hsum, hv]
    rw [if_pos hinc]
    by_cases hreach : target ≤ st.nTotal + v
    · rw [if_pos hreach]
      have hback : (st.vfIncluded.set i true).set i false = st.vfIncluded := by
        rw [List.set_set, set_false_self _ _ hf]
      refine ⟨⟨?_, ?_, ?_, ?_⟩, ?_⟩
      · show ((st.vfIncluded.set i true).set i false).length = vs.length
        rw [hback]; exact hlen
      · show sumIncl vs ((st.vfIncluded.set i true).set i false) = st.nTotal + v - v
        rw [hback, hsum]; ring
      · show sumIncl vs (if st.nTotal + v < st.nBest then st.vfIncluded.set i true else st.vfBest)
          = if st.nTotal + v < st.nBest then st.nTotal + v else st.nBest
        by_cases hlt : st.nTotal + v < st.nBest
        · rw [if_pos hlt, if_pos hlt]; exact hset
        · rw [if_neg hlt, if_neg hlt]; exact hbest
      · show target ≤ if st.nTotal + v < st.nBest then st.nTotal + v else st.nBest
        by_cases hlt : st.nTotal + v < st.nBest
        · rw [if_pos hlt]; exact hreach
        · rw [if_neg hlt]; exact htb
      · intro j hj
        show ((st.vfIncluded.set i true).set i false).getD j false = _
        rw [hback]
    · rw [if_neg hreach]
      refine ⟨⟨?_, hset, hbest, htb⟩, ?_⟩
      · show (st.vfIncluded.set i true).length = vs.length
        rw [List.length_set]; exact hlen
      · intro j hj
        exact getD_set_ne _ _ _ _ hj
  · rw [if_neg hinc]
    exact ⟨⟨hlen, hsum, hbest, htb⟩, fun j _ => rfl⟩

lemma drop_cons_facts (vs tail : List Int) (k : Nat) (v : Int)
    (h : vs.drop k = v :: tail) :
    k < vs.length ∧ vs.getD k 0 = v ∧ vs.drop (k + 1) = tail := by
  have hk : k < vs.length := by
    by_contra hle
    rw [List.drop_eq_nil_of_le (by omega)] at h
    exact List.noConfusion h
  refine ⟨hk, ?_, ?_⟩
  · have : vs[k]? = some v := by
      have := List.getElem?_drop vs k 0
      rw [h] at this
      simpa using this.symm
    simp [List.getD, this]
  · have h2 : (vs.drop k).drop 1 = tail := by rw [h]; simp
    rw [List.drop_drop] at h2
    exact h2

lemma absPassAux_inv1 (target : Int) (vs : List Int) :
    ∀ (tail : List Int) (k : Nat) (st : ABSState), vs.drop k = tail →
      ABSInv target vs st →
      ABSInv target vs (absPassAux target (fun i vf => !(vf.getD i false)) k tail st) := by
  intro tail
  induction tail with
  | nil => intro k st _ hinv; exact hinv
  | cons v rest ih =>
    intro k st hdrop hinv
    obtain ⟨hk, hv, hdrop'⟩ := drop_cons_facts vs rest k v hdrop
    have hstep := absStep_inv target (fun i vf => !(vf.getD i false)) k v vs st hinv hk hv.symm
      (by intro h; exact Bool.not_eq_true' .. |>.mp h)
    exact ih (k + 1) _ hdrop' hstep.1

lemma absPassAux_inv0 (target : Int) (vs : List Int) (rnd : Nat → Bool) :
    ∀ (tail : List Int) (k : Nat) (st : ABSState), vs.drop k = tail →
      ABSInv target vs st →
      (∀ j, k ≤ j → st.vfIncluded.getD j false = false) →
      ABSInv target vs (absPassAux target (fun i _ => rnd i) k tail st) := by
  intro tail
  induction tail with
  | nil => intro k st _ hinv _; exact hinv
  | cons v rest ih =>
    intro k st hdrop hinv hz
    obtain ⟨hk, hv, hdrop'⟩ := drop_cons_facts vs rest k v hdrop
    have hstep := absStep_inv target (fun i _ => rnd i) k v vs st hinv hk hv.symm
      (fun _ => hz k (Nat.le_refl k))
    refine ih (k + 1) _ hdrop' hstep.1 ?_
    intro j hj
    rw [hstep.2 j (by omega)]
    exact hz j (by omega)

lemma absRep_good (target : Int) (rnd : Nat → Bool) (vs : List Int) (b : List Bool × Int)
    (h1 : sumIncl vs b.1 = b.2) (h2 : target ≤ b.2) :
    sumIncl vs (absRep target rnd vs b).1 = (absRep target rnd vs b).2 ∧
      target ≤ (absRep target rnd vs b).2 := by
  simp only [absRep]
  have hst0 : ABSInv target vs
      { vfIncluded := List.replicate vs.length false, nTotal := 0, reached := false,
        vfBest := b.1, nBest := b.2 } := by
    refine ⟨List.length_replicate .., sumIncl_replicate_false vs vs.length, h1, h2⟩
  have hst1 := absPassAux_inv0 target vs rnd vs 0 _ (List.drop_zero vs) hst0
    (fun j _ => by simp [List.getD])
  set st1 := absPassAux target (fun i _ => rnd i) 0 vs
      { vfIncluded := List.replicate vs.length false, nTotal := 0, reached := false,
        vfBest := b.1, nBest := b.2 } with hst1def
  by_cases hr : st1.reached
  · rw [if_pos hr]
    exact ⟨hst1.2.2.1, hst1.2.2.2⟩
  · rw [if_neg hr]
    have hst2 := absPassAux_inv1 target vs vs 0 st1 (List.drop_zero vs) hst1
    exact ⟨hst2.2.2.1, hst2.2.2.2⟩

lemma absLoop_good (target : Int) (rng : Nat → Nat → Bool) (vs : List Int) :
    ∀ (fuel rep : Nat) (b : List Bool × Int),
      sumIncl vs b.1 = b.2 → target ≤ b.2 →
      sumIncl vs (absLoop target rng vs fuel rep b).1 = (absLoop target rng vs fuel rep b).2 ∧
        target ≤ (absLoop target rng vs fuel rep b).2 := by
  intro fuel
  induction fuel with
  | zero => intro rep b h1 h2; exact ⟨h1, h2⟩
  | succ n ih =>
    intro rep b h1 h2
    unfold absLoop
    by_cases hne : b.2 ≠ target
    · rw [if_pos hne]
      have := absRep_good target (rng rep) vs b h1 h2
      exact ih (rep + 1) _ this.1 this.2
    · rw [if_neg hne]
      exact ⟨h1, h2⟩

/-- Postcondition of `ApproximateBestSubset`: when `nTotalLower` is the total
of the values and is at least the target, the returned `nBest` is the sum of
the returned `vfBest` subset and is at least the target. -/
lemma abs_post (rng : Nat → Nat → Bool) (vs : List Int) (nTotalLower target : Int)
    (iters : Nat) (h1 : vs.sum = nTotalLower) (h2 : target ≤ nTotalLower) :
    sumIncl vs (ApproximateBestSubset rng vs nTotalLower target iters).1 =
        (ApproximateBestSubset rng vs nTotalLower target iters).2 ∧
      target ≤ (ApproximateBestSubset rng vs nTotalLower target iters).2 := by
  unfold ApproximateBestSubset
  exact absLoop_good target rng vs iters 0 _
    (by rw [sumIncl_replicate_true, h1]) h2

/-- Postcondition of the pair of `ApproximateBestSubset` calls. -/
lemma absFull_post (rng1 rng2 : Nat → Nat → Bool) (vs : List Int)
    (nTotalLower target cent : Int) (h1 : vs.sum = nTotalLower)
    (h2 : target ≤ nTotalLower) (hcent : 0 ≤ cent) :
    sumIncl vs (absFull rng1 rng2 vs nTotalLower target cent).1 =
        (absFull rng1 rng2 vs nTotalLower target cent).2 ∧
      target ≤ (absFull rng1 rng2 vs nTotalLower target cent).2 := by
  unfold absFull
  by_cases hc : (ApproximateBestSubset rng1 vs nTotalLower target 1000).2 ≠ target ∧
      target + cent ≤ nTotalLower
  · rw [if_pos hc]
    have := abs_post rng2 vs nTotalLower (target + cent) 1000 h1 hc.2
    exact ⟨this.1, by omega⟩
  · rw [if_neg hc]
    exact abs_post rng1 vs nTotalLower target 1000 h1 h2

/-! ### Properties of the subset extraction and the sorts -/

lemma sumVals_pickFlags (cs : List Candidate) (bs : List Bool) :
    sumVals (pickFlags cs bs) = sumIncl (cs.map Candidate.value) bs := by
  induction cs generalizing bs with
  | nil => cases bs <;> simp [pickFlags, sumIncl, sumVals]
  | cons c cs ih =>
    cases bs with
    | nil => simp [pickFlags, sumIncl, sumVals]
    | cons b bs =>
      have h := ih bs
      unfold sumVals at h ⊢
      cases b with
      | true =>
        show (List.map Candidate.value (c :: pickFlags cs bs)).sum = _
        simp [sumIncl]
        omega
      | false =>
        show (List.map Candidate.value (pickFlags cs bs)).sum = _
        simp [sumIncl]
        omega

lemma pickFlags_mem (cs : List Candidate) (bs : List Bool) :
    ∀ c ∈ pickFlags cs bs, c ∈ cs := by
  induction cs generalizing bs with
  | nil => intro c hc; cases bs <;> simp [pickFlags] at hc
  | cons d cs ih =>
    intro c hc
    cases bs with
    | nil => simp [pickFlags] at hc
    | cons b bs =>
      cases b with
      | false =>
        simp [pickFlags] at hc
        exact List.mem_cons_of_mem d (ih bs c hc)
      | true =>
        simp [pickFlags] at hc
        rcases hc with h | h
        · exact h ▸ List.mem_cons_self c cs
        · exact List.mem_cons_of_mem d (ih bs c h)

lemma insertDesc_perm (c : Candidate) (l : List Candidate) :
    (insertDesc c l).Perm (c :: l) := by
  induction l with
  | nil => simp [insertDesc]
  | cons d ds ih =>
    unfold insertDesc
    by_cases h : d.value ≤ c.value
    · rw [if_pos h]
    · rw [if_neg h]
      exact (List.Perm.cons d ih).trans (List.Perm.swap c d ds)

lemma sortDesc_perm (l : List Candidate) : (sortDesc l).Perm l := by
  induction l with
  | nil => simp [sortDesc]
  | cons c cs ih =>
    unfold sortDesc
    exact (insertDesc_perm c (sortDesc cs)).trans (List.Perm.cons c ih)

lemma insertAsc_perm (c : Candidate) (l : List Candidate) :
    (insertAsc c l).Perm (c :: l) := by
  induction l with
  | nil => simp [insertAsc]
  | cons d ds ih =>
    unfold insertAsc
    by_cases h : c.value ≤ d.value
    · rw [if_pos h]
    · rw [if_neg h]
      exact (List.Perm.cons d ih).trans (List.Perm.swap c d ds)

lemma sortAsc_perm (l : List Candidate) : (sortAsc l).Perm l := by
  induction l with
  | nil => simp [sortAsc]
  | cons c cs ih =>
    unfold sortAsc
    exact (insertAsc_perm c (sortAsc cs)).trans (List.Perm.cons c ih)

lemma sumVals_perm {l l' : List Candidate} (h : l.Perm l') : sumVals l = sumVals l' :=
  (h.map Candidate.value).sum_eq

lemma eligSum_perm (cm ct : Int) (sp : Nat) {l l' : List Candidate} (h : l.Perm l') :
    eligSum cm ct sp l = eligSum cm ct sp l' :=
  sumVals_perm (h.filter (eligibleB cm ct sp))

/-! ### Properties of the scan loop -/

/-- Membership in the `vValue` partition: eligible, not an exact match, and
below `nTargetValue + CENT`. -/
def smallP (cent target cm ct : Int) (sp : Nat) (c : Candidate) : Bool :=
  eligibleB cm ct sp c && decide (¬ c.value = target) && decide (c.value < target + cent)

/-- Candidates competing for `coinLowestLarger`: eligible with value at least
`nTargetValue + CENT`. -/
def largeP (cent target cm ct : Int) (sp : Nat) (c : Candidate) : Bool :=
  eligibleB cm ct sp c && decide (target + cent ≤ c.value)

lemma scan_cons_skip (cent target : Int) (sp : Nat) (cm ct : Int) (c : Candidate)
    (rest : List Candidate) (st0 : ScanState)
    (h : eligibleB cm ct sp c = false) :
    scanCoins cent target sp cm ct (c :: rest) st0 =
      scanCoins cent target sp cm ct rest st0 := by
  simp only [eligibleB, Bool.and_eq_false_iff, decide_eq_false_iff_not, not_le] at h
  rw [scanCoins]
  rcases h with h | h
  · rw [if_pos h]
  · by_cases h1 : c.depth < confReq cm ct c
    · rw [if_pos h1]
    · rw [if_neg h1, if_pos h]

lemma scan_cons_exact (cent target : Int) (sp : Nat) (cm ct : Int) (c : Candidate)
    (rest : List Candidate) (st0 : ScanState)
    (helig : eligibleB cm ct sp c = true) (hval : c.value = target) :
    scanCoins cent target sp cm ct (c :: rest) st0 = .inl c := by
  simp only [eligibleB, Bool.and_eq_true, decide_eq_true_eq] at helig
  rw [scanCoins, if_neg (by omega), if_neg (by omega), if_pos hval]

lemma scan_cons_small (cent target : Int) (sp : Nat) (cm ct : Int) (c : Candidate)
    (rest : List Candidate) (st0 : ScanState)
    (helig : eligibleB cm ct sp c = true) (hne : ¬ c.value = target)
    (hlt : c.value < target + cent) :
    scanCoins cent target sp cm ct (c :: rest) st0 =
      scanCoins cent target sp cm ct rest
        { st0 with vValue := st0.vValue ++ [c], nTotalLower := st0.nTotalLower + c.value } := by
  simp only [eligibleB, Bool.and_eq_true, decide_eq_true_eq] at helig
  rw [scanCoins, if_neg (by omega), if_neg (by omega), if_neg hne, if_pos hlt]

lemma scan_cons_large_assign (cent target : Int) (sp : Nat) (cm ct : Int) (c : Candidate)
    (rest : List Candidate) (st0 : ScanState)
    (helig : eligibleB cm ct sp c = true) (hne : ¬ c.value = target)
    (hge : ¬ c.value < target + cent) (hlt : c.value < st0.lowLargerVal) :
    scanCoins cent target sp cm ct (c :: rest) st0 =
      scanCoins cent target sp cm ct rest
        { st0 with lowLargerVal := c.value, lowLarger := some c } := by
  simp only [eligibleB, Bool.and_eq_true, decide_eq_true_eq] at helig
  rw [scanCoins, if_neg (by omega), if_neg (by omega), if_neg hne, if_neg hge, if_pos hlt]

lemma scan_cons_large_keep (cent target : Int) (sp : Nat) (cm ct : Int) (c : Candidate)
    (rest : List Candidate) (st0 : ScanState)
    (helig : eligibleB cm ct sp c = true) (hne : ¬ c.value = target)
    (hge : ¬ c.value < target + cent) (hnlt : ¬ c.value < st0.lowLargerVal) :
    scanCoins cent target sp cm ct (c :: rest) st0 =
      scanCoins cent target sp cm ct rest st0 := by
  simp only [eligibleB, Bool.and_eq_true, decide_eq_true_eq] at helig
  rw [scanCoins, if_neg (by omega), if_neg (by omega), if_neg hne, if_neg hge, if_neg hnlt]

lemma scan_inr_spec (cent target : Int) (sp : Nat) (cm ct : Int) :
    ∀ (coins : List Candidate) (st0 st : ScanState),
      scanCoins cent target sp cm ct coins st0 = .inr st →
      st.vValue = st0.vValue ++ coins.filter (smallP cent target cm ct sp) ∧
        st.nTotalLower = st0.nTotalLower + sumVals (coins.filter (smallP cent target cm ct sp)) := by
  intro coins
  induction coins with
  | nil =>
    intro st0 st h
    rw [scanCoins] at h
    simp only [Sum.inr.injEq] at h
    subst h
    simp [sumVals]
  | cons c rest ih =>
    intro st0 st h
    by_cases helig : eligibleB cm ct sp c = true
    · by_cases hval : c.value = target
      · rw [scan_cons_exact cent target sp cm ct c rest st0 helig hval] at h
        exact absurd h (by simp)
      · by_cases hlt : c.value < target + cent
        · rw [scan_cons_small cent target sp cm ct c rest st0 helig hval hlt] at h
          have hsmall : smallP cent target cm ct sp c = true := by
            simp [smallP, helig, hval, hlt]
          rw [List.filter_cons_of_pos hsmall]
          have hr := ih _ st h
          simp only at hr
          constructor
          · rw [hr.1]
            simp
          · rw [hr.2]
            simp only [sumVals, List.map_cons, List.sum_cons]
            ring
        · have hsmall : smallP cent target cm ct sp c = false := by
            simp [smallP, hlt]
          rw [List.filter_cons_of_neg (by simp [hsmall])]
          by_cases hassign : c.value < st0.lowLargerVal
          · rw [scan_cons_large_assign cent target sp cm ct c rest st0 helig hval hlt hassign] at h
            have hr := ih _ st h
            exact hr
          · rw [scan_cons_large_keep cent target sp cm ct c rest st0 helig hval hlt hassign] at h
            exact ih _ st h
    · have hsmall : smallP cent target cm ct sp c = false := by
        simp only [smallP, Bool.and_eq_false_iff]
        left; left
        simpa using helig
      rw [List.filter_cons_of_neg (by simp [hsmall])]
      rw [scan_cons_skip cent target sp cm ct c rest st0 (by simpa using helig)] at h
      exact ih _ st h

lemma scan_inr_no_exact (cent target : Int) (sp : Nat) (cm ct : Int) :
    ∀ (coins : List Candidate) (st0 st : ScanState),
      scanCoins cent target sp cm ct coins st0 = .inr st →
      ∀ c ∈ coins, eligibleB cm ct sp c = true → c.value ≠ target := by
  intro coins
  induction coins with
  | nil => intro st0 st _ c hc; simp at hc
  | cons d rest ih =>
    intro st0 st h c hc helig'
    rw [List.mem_cons] at hc
    by_cases helig : eligibleB cm ct sp d = true
    · by_cases hval : d.value = target
      · rw [scan_cons_exact cent target sp cm ct d rest st0 helig hval] at h
        exact absurd h (by simp)
      · rcases hc with rfl | hc
        · exact hval
        · by_cases hlt : d.value < target + cent
          · rw [scan_cons_small cent target sp cm ct d rest st0 helig hval hlt] at h
            exact ih _ st h c hc helig'
          · by_cases hassign : d.value < st0.lowLargerVal
            · rw [scan_cons_large_assign cent target sp cm ct d rest st0 helig hval hlt hassign] at h
              exact ih _ st h c hc helig'
            · rw [scan_cons_large_keep cent target sp cm ct d rest st0 helig hval hlt hassign] at h
              exact ih _ st h c hc helig'
    · rw [scan_cons_skip cent target sp cm ct d rest st0 (by simpa using helig)] at h
      rcases hc with rfl | hc
      · exact absurd helig' helig
      · exact ih _ st h c hc helig'

lemma scan_inr_larger_inv (cent target : Int) (sp : Nat) (cm ct : Int) :
    ∀ (coins : List Candidate) (st0 st : ScanState),
      scanCoins cent target sp cm ct coins st0 = .inr st →
      (∀ c, st0.lowLarger = some c → st0.lowLargerVal = c.value ∧ target + cent ≤ c.value) →
      ∀ c, st.lowLarger = some c → st.lowLargerVal = c.value ∧ target + cent ≤ c.value := by
  intro coins
  induction coins with
  | nil =>
    intro st0 st h hinv
    rw [scanCoins] at h
    simp only [Sum.inr.injEq] at h
    subst h
    exact hinv
  | cons d rest ih =>
    intro st0 st h hinv
    by_cases helig : eligibleB cm ct sp d = true
    · by_cases hval : d.value = target
      · rw [scan_cons_exact cent target sp cm ct d rest st0 helig hval] at h
        exact absurd h (by simp)
      · by_cases hlt : d.value < target + cent
        · rw [scan_cons_small cent target sp cm ct d rest st0 helig hval hlt] at h
          exact ih _ st h hinv
        · by_cases hassign : d.value < st0.lowLargerVal
          · rw [scan_cons_large_assign cent target sp cm ct d rest st0 helig hval hlt hassign] at h
            refine ih _ st h ?_
            intro c hc
            simp only [Option.some.injEq] at hc
            subst hc
            exact ⟨rfl, by omega⟩
          · rw [scan_cons_large_keep cent target sp cm ct d rest st0 helig hval hlt hassign] at h
            exact ih _ st h hinv
    · rw [scan_cons_skip cent target sp cm ct d rest st0 (by simpa using helig)] at h
      exact ih _ st h hinv

lemma scan_inr_some_mono (cent target : Int) (sp : Nat) (cm ct : Int) :
    ∀ (coins : List Candidate) (st0 st : ScanState),
      scanCoins cent target sp cm ct coins st0 = .inr st →
      st0.lowLarger.isSome → st.lowLarger.isSome := by
  intro coins
  induction coins with
  | nil =>
    intro st0 st h hsome
    rw [scanCoins] at h
    simp only [Sum.inr.injEq] at h
    subst h
    exact hsome
  | cons d rest ih =>
    intro st0 st h hsome
    by_cases helig : eligibleB cm ct sp d = true
    · by_cases hval : d.value = target
      · rw [scan_cons_exact cent target sp cm ct d rest st0 helig hval] at h
        exact absurd h (by simp)
      · by_cases hlt : d.value < target + cent
        · rw [scan_cons_small cent target sp cm ct d rest st0 helig hval hlt] at h
          exact ih _ st h hsome
        · by_cases hassign : d.value < st0.lowLargerVal
          · rw [scan_cons_large_assign cent target sp cm ct d rest st0 helig hval hlt hassign] at h
            exact ih _ st h (by simp)
          · rw [scan_cons_large_keep cent target sp cm ct d rest st0 helig hval hlt hassign] at h
            exact ih _ st h hsome
    · rw [scan_cons_skip cent target sp cm ct d rest st0 (by simpa using helig)] at h
      exact ih _ st h hsome

lemma scan_inr_finds_large (cent target : Int) (sp : Nat) (cm ct : Int) :
    ∀ (coins : List Candidate) (st0 st : ScanState),
      scanCoins cent target sp cm ct coins st0 = .inr st →
      (st0.lowLarger.isSome ∨ st0.lowLargerVal = int64Max) →
      (∃ c ∈ coins, eligibleB cm ct sp c = true ∧ target + cent ≤ c.value ∧ c.value < int64Max) →
      st.lowLarger.isSome := by
  intro coins
  induction coins with
  | nil =>
    intro st0 st _ _ hex
    simp at hex
  | cons d rest ih =>
    intro st0 st h hdisj hex
    by_cases helig : eligibleB cm ct sp d = true
    · by_cases hval : d.value = target
      · rw [scan_cons_exact cent target sp cm ct d rest st0 helig hval] at h
        exact absurd h (by simp)
      · by_cases hlt : d.value < target + cent
        · rw [scan_cons_small cent target sp cm ct d rest st0 helig hval hlt] at h
          rcases hex with ⟨c, hc, hce, hcge, hclt⟩
          rcases List.mem_cons.mp hc with rfl | hc
          · omega
          · exact ih _ st h hdisj ⟨c, hc, hce, hcge, hclt⟩
        · by_cases hassign : d.value < st0.lowLargerVal
          · rw [scan_cons_large_assign cent target sp cm ct d rest st0 helig hval hlt hassign] at h
            exact scan_inr_some_mono cent target sp cm ct rest _ st h (by simp)
          · rw [scan_cons_large_keep cent target sp cm ct d rest st0 helig hval hlt hassign] at h
            rcases hex with ⟨c, hc, hce, hcge, hclt⟩
            rcases List.mem_cons.mp hc with rfl | hc
            · rcases hdisj with hsome | hmax
              · exact scan_inr_some_mono cent target sp cm ct rest _ st h hsome
              · omega
            · exact ih _ st h hdisj ⟨c, hc, hce, hcge, hclt⟩
    · rw [scan_cons_skip cent target sp cm ct d rest st0 (by simpa using helig)] at h
      rcases hex with ⟨c, hc, hce, hcge, hclt⟩
      rcases List.mem_cons.mp hc with rfl | hc
      · exact absurd hce helig
      · exact ih _ st h hdisj ⟨c, hc, hce, hcge, hclt⟩

lemma eligSum_split (cent target : Int) (sp : Nat) (cm ct : Int)
    (coins : List Candidate)
    (hne : ∀ c ∈ coins, eligibleB cm ct sp c = true → c.value ≠ target) :
    eligSum cm ct sp coins =
      sumVals (coins.filter (smallP cent target cm ct sp)) +
        sumVals (coins.filter (largeP cent target cm ct sp)) := by
  induction coins with
  | nil => simp [eligSum, sumVals]
  | cons c rest ih =>
    have hrest := ih (fun d hd => hne d (List.mem_cons_of_mem c hd))
    by_cases helig : eligibleB cm ct sp c = true
    · have hcne := hne c (List.mem_cons_self c rest) helig
      by_cases hlt : c.value < target + cent
      · have hs : smallP cent target cm ct sp c = true := by
          simp [smallP, helig, hcne, hlt]
        have hl : largeP cent target cm ct sp c = false := by
          simp [largeP, helig]
          omega
        rw [eligSum, List.filter_cons_of_pos helig, List.filter_cons_of_pos hs,
          List.filter_cons_of_neg (by simp [hl])]
        rw [eligSum] at hrest
        simp only [sumVals, List.map_cons, List.sum_cons] at *
        omega
      · have hs : smallP cent target cm ct sp c = false := by
          simp [smallP, hlt]
        have hl : largeP cent target cm ct sp c = true := by
          simp [largeP, helig]
          omega
        rw [eligSum, List.filter_cons_of_pos helig, List.filter_cons_of_neg (by simp [hs]),
          List.filter_cons_of_pos hl]
        rw [eligSum] at hrest
        simp only [sumVals, List.map_cons, List.sum_cons] at *
        omega
    · have hs : smallP cent target cm ct sp c = false := by
        simp only [smallP, Bool.and_eq_false_iff]
        left; left
        simpa using helig
      have hl : largeP cent target cm ct sp c = false := by
        simp only [largeP, Bool.and_eq_false_iff]
        left
        simpa using helig
      rw [eligSum, List.filter_cons_of_neg (by simpa using helig),
        List.filter_cons_of_neg (by simp [hs]), List.filter_cons_of_neg (by simp [hl])]
      rw [eligSum] at hrest
      exact hrest

lemma exists_of_filter_sum_ne (p : Candidate → Bool) (l : List Candidate)
    (h : sumVals (l.filter p) ≠ 0) : ∃ c ∈ l, p c = true := by
  by_contra hq
  push_neg at hq
  have : l.filter p = [] := List.filter_eq_nil_iff.mpr (by
    intro c hc
    simp [hq c hc])
  rw [this] at h
  simp [sumVals] at h

lemma eligibleB_true_iff (cm ct : Int) (sp : Nat) (c : Candidate) :
    eligibleB cm ct sp c = true ↔ confReq cm ct c ≤ c.depth ∧ c.nTime ≤ sp := by
  simp [eligibleB]

lemma eligSum_cons (cm ct : Int) (sp : Nat) (c : Candidate) (rest : List Candidate) :
    eligSum cm ct sp (c :: rest) =
      (if eligibleB cm ct sp c = true then c.value else 0) + eligSum cm ct sp rest := by
  by_cases h : eligibleB cm ct sp c = true
  · rw [eligSum, List.filter_cons_of_pos h, if_pos h, eligSum]
    simp [sumVals]
  · rw [eligSum, List.filter_cons_of_neg h, if_neg h, eligSum]
    simp

lemma scan_inl_spec (cent target : Int) (sp : Nat) (cm ct : Int) :
    ∀ (coins : List Candidate) (st0 : ScanState) (c : Candidate),
      scanCoins cent target sp cm ct coins st0 = .inl c →
      c ∈ coins ∧ eligibleB cm ct sp c = true ∧ c.value = target := by
  intro coins
  induction coins with
  | nil =>
    intro st0 c h
    rw [scanCoins] at h
    exact absurd h (by simp)
  | cons d rest ih =>
    intro st0 c h
    by_cases helig : eligibleB cm ct sp d = true
    · by_cases hval : d.value = target
      · rw [scan_cons_exact cent target sp cm ct d rest st0 helig hval] at h
        simp only [Sum.inl.injEq] at h
        subst h
        exact ⟨List.mem_cons_self d rest, helig, hval⟩
      · by_cases hlt : d.value < target + cent
        · rw [scan_cons_small cent target sp cm ct d rest st0 helig hval hlt] at h
          have hr := ih _ c h
          exact ⟨List.mem_cons_of_mem d hr.1, hr.2⟩
        · by_cases hassign : d.value < st0.lowLargerVal
          · rw [scan_cons_large_assign cent target sp cm ct d rest st0 helig hval hlt hassign] at h
            have hr := ih _ c h
            exact ⟨List.mem_cons_of_mem d hr.1, hr.2⟩
          · rw [scan_cons_large_keep cent target sp cm ct d rest st0 helig hval hlt hassign] at h
            have hr := ih _ c h
            exact ⟨List.mem_cons_of_mem d hr.1, hr.2⟩
    · rw [scan_cons_skip cent target sp cm ct d rest st0 (by simpa using helig)] at h
      have hr := ih _ c h
      exact ⟨List.mem_cons_of_mem d hr.1, hr.2⟩

lemma scan_inl_of_exact (cent target : Int) (sp : Nat) (cm ct : Int) :
    ∀ (coins : List Candidate) (st0 : ScanState),
      (∃ c ∈ coins, eligibleB cm ct sp c = true ∧ c.value = target) →
      ∃ c, scanCoins cent target sp cm ct coins st0 = .inl c ∧ c.value = target := by
  intro coins
  induction coins with
  | nil => intro st0 hex; simp at hex
  | cons d rest ih =>
    intro st0 hex
    by_cases helig : eligibleB cm ct sp d = true
    · by_cases hval : d.value = target
      · exact ⟨d, scan_cons_exact cent target sp cm ct d rest st0 helig hval, hval⟩
      · rcases hex with ⟨c, hc, hce, hcv⟩
        rcases List.mem_cons.mp hc with rfl | hc
        · exact absurd hcv hval
        · by_cases hlt : d.value < target + cent
          · rw [scan_cons_small cent target sp cm ct d rest st0 helig hval hlt]
            exact ih _ ⟨c, hc, hce, hcv⟩
          · by_cases hassign : d.value < st0.lowLargerVal
            · rw [scan_cons_large_assign cent target sp cm ct d rest st0 helig hval hlt hassign]
              exact ih _ ⟨c, hc, hce, hcv⟩
            · rw [scan_cons_large_keep cent target sp cm ct d rest st0 helig hval hlt hassign]
              exact ih _ ⟨c, hc, hce, hcv⟩
    · rcases hex with ⟨c, hc, hce, hcv⟩
      rcases List.mem_cons.mp hc with rfl | hc
      · exact absurd hce helig
      · rw [scan_cons_skip cent target sp cm ct d rest st0 (by simpa using helig)]
        exact ih _ ⟨c, hc, hce, hcv⟩

lemma sscLoop_sufficient (target : Int) (sp : Nat) (cm ct : Int) :
    ∀ (coins : List Candidate) (acc : List Candidate) (val : Int),
      val < target → target ≤ val + eligSum cm ct sp coins →
      ∃ s v, sscLoop target sp cm ct coins acc val = some (s, v) ∧ target ≤ v := by
  intro coins
  induction coins with
  | nil =>
    intro acc val hlt hsum
    rw [eligSum] at hsum
    simp [sumVals] at hsum
    omega
  | cons c rest ih =>
    intro acc val hlt hsum
    rw [eligSum_cons] at hsum
    by_cases helig : eligibleB cm ct sp c = true
    · rw [if_pos helig] at hsum
      have hpass := (eligibleB_true_iff cm ct sp c).mp helig
      rw [sscLoop, if_neg (by omega), if_neg (by omega)]
      by_cases hreach : target ≤ val + c.value
      · rw [if_pos hreach]
        exact ⟨acc ++ [c], val + c.value, rfl, hreach⟩
      · rw [if_neg hreach]
        exact ih (acc ++ [c]) (val + c.value) (by omega) (by omega)
    · rw [if_neg helig] at hsum
      have hfail := helig
      rw [eligibleB_true_iff] at hfail
      rw [sscLoop]
      by_cases h1 : c.depth < confReq cm ct c
      · rw [if_pos h1]
        exact ih acc val hlt (by omega)
      · rw [if_neg h1, if_pos (by omega)]
        exact ih acc val hlt (by omega)

lemma selectCoinsMinConf_sufficient (cent target : Int) (sp : Nat) (cm ct : Int)
    (vCoins : List Candidate) (shuffle : List Candidate → List Candidate)
    (rng1 rng2 : Nat → Nat → Bool)
    (hcent : 0 < cent)
    (hbound : ∀ c ∈ vCoins, c.value < int64Max)
    (hperm : (shuffle vCoins).Perm vCoins)
    (hsolv : target ≤ eligSum cm ct sp vCoins) :
    ∃ s v, SelectCoinsMinConf cent shuffle rng1 rng2 target sp cm ct vCoins = some (s, v) ∧
      target ≤ v := by
  have hsolv' : target ≤ eligSum cm ct sp (shuffle vCoins) := by
    rw [eligSum_perm cm ct sp hperm]
    exact hsolv
  by_cases hex : ∃ c ∈ shuffle vCoins, eligibleB cm ct sp c = true ∧ c.value = target
  · obtain ⟨c, hscan, hval⟩ := scan_inl_of_exact cent target sp cm ct (shuffle vCoins) initScan hex
    refine ⟨[c], c.value, ?_, by omega⟩
    simp only [SelectCoinsMinConf, hscan]
  · push_neg at hex
    cases hscan : scanCoins cent target sp cm ct (shuffle vCoins) initScan with
    | inl c =>
      have hc := scan_inl_spec cent target sp cm ct (shuffle vCoins) initScan c hscan
      exact absurd hc.2.2 (hex c hc.1 hc.2.1)
    | inr st =>
      have hspec := scan_inr_spec cent target sp cm ct (shuffle vCoins) initScan st hscan
      simp only [initScan, List.nil_append, Int.zero_add, zero_add] at hspec
      have hsplit := eligSum_split cent target sp cm ct (shuffle vCoins)
        (fun c hc he => hex c hc he)
      by_cases h1 : st.nTotalLower = target
      · refine ⟨st.vValue, sumVals st.vValue, ?_, ?_⟩
        · simp only [SelectCoinsMinConf, hscan]
          rw [if_pos h1]
        · rw [hspec.1, ← hspec.2, h1]
      · by_cases h2 : st.nTotalLower < target
        · -- the small partition cannot cover the target, so a larger coin exists
          have hlpos : sumVals ((shuffle vCoins).filter (largeP cent target cm ct sp)) ≠ 0 := by
            rw [hsplit, ← hspec.2] at hsolv'
            omega
          obtain ⟨cL, hcL, hcLp⟩ := exists_of_filter_sum_ne _ _ hlpos
          simp only [largeP, Bool.and_eq_true, decide_eq_true_eq] at hcLp
          have hsome : st.lowLarger.isSome := by
            refine scan_inr_finds_large cent target sp cm ct (shuffle vCoins) initScan st hscan
              (Or.inr rfl) ⟨cL, hcL, hcLp.1, hcLp.2, ?_⟩
            exact hbound cL (hperm.mem_iff.mp hcL)
          obtain ⟨cBig, hcBig⟩ := Option.isSome_iff_exists.mp hsome
          have hinv := scan_inr_larger_inv cent target sp cm ct (shuffle vCoins) initScan st hscan
            (by intro c hc; simp [initScan] at hc) cBig hcBig
          refine ⟨[cBig], st.lowLargerVal, ?_, by omega⟩
          simp only [SelectCoinsMinConf, hscan]
          rw [if_neg h1, if_pos h2, hcBig]
        · -- subset-sum branch
          have h3 : target < st.nTotalLower := by omega
          have hsort : sumVals (sortDesc st.vValue) = st.nTotalLower := by
            rw [sumVals_perm (sortDesc_perm st.vValue), hspec.1, ← hspec.2]
          have habs := absFull_post rng1 rng2 ((sortDesc st.vValue).map Candidate.value)
            st.nTotalLower target cent hsort (by omega) (by omega)
          have hpick : sumVals (pickFlags (sortDesc st.vValue)
              (absFull rng1 rng2 ((sortDesc st.vValue).map Candidate.value)
                st.nTotalLower target cent).1) =
              (absFull rng1 rng2 ((sortDesc st.vValue).map Candidate.value)
                st.nTotalLower target cent).2 := by
            rw [sumVals_pickFlags]
            exact habs.1
          cases hlow : st.lowLarger with
          | none =>
            refine ⟨pickFlags (sortDesc st.vValue)
              (absFull rng1 rng2 ((sortDesc st.vValue).map Candidate.value)
                st.nTotalLower target cent).1,
              sumVals (pickFlags (sortDesc st.vValue)
                (absFull rng1 rng2 ((sortDesc st.vValue).map Candidate.value)
                  st.nTotalLower target cent).1), ?_, ?_⟩
            · simp only [SelectCoinsMinConf, hscan]
              rw [if_neg h1, if_neg h2, hlow]
              simp only [minConfLarge]
            · rw [hpick]
              exact habs.2
          | some cBig =>
            have hinv := scan_inr_larger_inv cent target sp cm ct (shuffle vCoins) initScan st hscan
              (by intro c hc; simp [initScan] at hc) cBig hlow
            by_cases hcond : ((absFull rng1 rng2 ((sortDesc st.vValue).map Candidate.value)
                st.nTotalLower target cent).2 ≠ target ∧
                (absFull rng1 rng2 ((sortDesc st.vValue).map Candidate.value)
                  st.nTotalLower target cent).2 < target + cent) ∨
                st.lowLargerVal ≤ (absFull rng1 rng2 ((sortDesc st.vValue).map Candidate.value)
                  st.nTotalLower target cent).2
            · refine ⟨[cBig], st.lowLargerVal, ?_, by omega⟩
              simp only [SelectCoinsMinConf, hscan]
              rw [if_neg h1, if_neg h2, hlow]
              simp only [minConfLarge]
              rw [if_pos hcond]
            · refine ⟨pickFlags (sortDesc st.vValue)
                (absFull rng1 rng2 ((sortDesc st.vValue).map Candidate.value)
                  st.nTotalLower target cent).1,
                sumVals (pickFlags (sortDesc st.vValue)
                  (absFull rng1 rng2 ((sortDesc st.vValue).map Candidate.value)
                    st.nTotalLower target cent).1), ?_, ?_⟩
              · simp only [SelectCoinsMinConf, hscan]
                rw [if_neg h1, if_neg h2, hlow]
                simp only [minConfLarge]
                rw [if_neg hcond]
              · rw [hpick]
                exact habs.2

/-! ### Claims C1 and C2 -/

/-- C1, counterexample to the claim as stated: for `SelectSmallestCoins` with
target `0` and an empty candidate list, the target (0) is at most the sum of
the values of all eligible candidates (0), yet selection fails (`return
false`), because the success test `nValueRet >= nTargetValue` only runs after
accepting a coin. -/
theorem claim_C1_counterexample :
    (0 : Int) ≤ eligSum 1 1 0 ([] : List Candidate) ∧
      SelectSmallestCoins 0 0 1 1 [] = none := by
  constructor
  · decide
  · rfl

/-- C1 (amended): for every candidate list whose values are representable
below the int64 sentinel, and every positive target at most the sum of the
eligible candidates' values, both `SelectCoinsMinConf` (for any shuffle of the
candidates and any random streams) and `SelectSmallestCoins` succeed and
return a set whose reported total is at least the target. -/
theorem claim_C1_selection_sufficiency (cent target : Int) (sp : Nat) (cm ct : Int)
    (vCoins : List Candidate) (shuffle : List Candidate → List Candidate)
    (rng1 rng2 : Nat → Nat → Bool)
    (hcent : 0 < cent) (htpos : 0 < target)
    (hbound : ∀ c ∈ vCoins, c.value < int64Max)
    (hperm : (shuffle vCoins).Perm vCoins)
    (hsolv : target ≤ eligSum cm ct sp vCoins) :
    (∃ s v, SelectCoinsMinConf cent shuffle rng1 rng2 target sp cm ct vCoins = some (s, v) ∧
      target ≤ v) ∧
    (∃ s v, SelectSmallestCoins target sp cm ct vCoins = some (s, v) ∧ target ≤ v) := by
  constructor
  · exact selectCoinsMinConf_sufficient cent target sp cm ct vCoins shuffle rng1 rng2
      hcent hbound hperm hsolv
  · have hsort : target ≤ 0 + eligSum cm ct sp (sortAsc vCoins) := by
      rw [eligSum_perm cm ct sp (sortAsc_perm vCoins)]
      omega
    exact sscLoop_sufficient target sp cm ct (sortAsc vCoins) [] 0 htpos hsort

/-- C1 witness: a solvable instance on which the amended claim applies. -/
theorem claim_C1_selection_sufficiency_witness :
    (∃ s v, SelectCoinsMinConf 1000000 (fun l => l) (fun _ _ => false) (fun _ _ => false)
        1 10 1 1 [⟨5, true, 3, 0⟩] = some (s, v) ∧ (1 : Int) ≤ v) ∧
    (∃ s v, SelectSmallestCoins 1 10 1 1 [⟨5, true, 3, 0⟩] = some (s, v) ∧ (1 : Int) ≤ v) :=
  claim_C1_selection_sufficiency 1000000 1 10 1 1 [⟨5, true, 3, 0⟩] (fun l => l)
    (fun _ _ => false) (fun _ _ => false) (by decide) (by decide)
    (by decide) (List.Perm.refl _) (by decide)

/-- C2: for `SelectCoinsMinConf`, if some single eligible candidate's value
equals the target exactly, or the values collected into the smaller-than-target
partition (`vValue`, the eligible candidates below `nTargetValue + CENT` other
than exact matches) sum exactly to the target, the returned total equals the
target exactly. -/
theorem claim_C2_exact_selection (cent target : Int) (sp : Nat) (cm ct : Int)
    (vCoins : List Candidate) (shuffle : List Candidate → List Candidate)
    (rng1 rng2 : Nat → Nat → Bool)
    (hperm : (shuffle vCoins).Perm vCoins)
    (hyp : (∃ c ∈ vCoins, eligibleB cm ct sp c = true ∧ c.value = target) ∨
      sumVals (vCoins.filter (smallP cent target cm ct sp)) = target) :
    ∃ s, SelectCoinsMinConf cent shuffle rng1 rng2 target sp cm ct vCoins = some (s, target) := by
  by_cases hex : ∃ c ∈ shuffle vCoins, eligibleB cm ct sp c = true ∧ c.value = target
  · obtain ⟨c, hscan, hval⟩ := scan_inl_of_exact cent target sp cm ct (shuffle vCoins) initScan hex
    refine ⟨[c], ?_⟩
    simp only [SelectCoinsMinConf, hscan, hval]
  · have hsmall : sumVals (vCoins.filter (smallP cent target cm ct sp)) = target := by
      rcases hyp with ⟨c, hc, hce, hcv⟩ | h
      · exact absurd ⟨c, hperm.mem_iff.mpr hc, hce, hcv⟩ hex
      · exact h
    cases hscan : scanCoins cent target sp cm ct (shuffle vCoins) initScan with
    | inl c =>
      have hc := scan_inl_spec cent target sp cm ct (shuffle vCoins) initScan c hscan
      exact absurd ⟨c, hc.1, hc.2.1, hc.2.2⟩ hex
    | inr st =>
      have hspec := scan_inr_spec cent target sp cm ct (shuffle vCoins) initScan st hscan
      simp only [initScan, List.nil_append, zero_add] at hspec
      have htot : st.nTotalLower = target := by
        rw [hspec.2, sumVals_perm ((hperm.filter (smallP cent target cm ct sp)))]
        exact hsmall
      refine ⟨st.vValue, ?_⟩
      have hval : sumVals st.vValue = target := by
        rw [hspec.1, ← hspec.2]
        exact htot
      simp only [SelectCoinsMinConf, hscan]
      rw [if_pos htot, hval]

/-- C2 witness: a single eligible candidate matching the target exactly. -/
theorem claim_C2_exact_selection_witness :
    ∃ s, SelectCoinsMinConf 1000000 (fun l => l) (fun _ _ => false) (fun _ _ => false)
      7 10 1 1 [⟨7, true, 3, 0⟩] = some (s, 7) :=
  claim_C2_exact_selection 1000000 7 10 1 1 [⟨7, true, 3, 0⟩] (fun l => l)
    (fun _ _ => false) (fun _ _ => false) (List.Perm.refl _)
    (Or.inl ⟨⟨7, true, 3, 0⟩, by decide, by decide, rfl⟩)

/-! ### Claim C3 -/

set_option maxRecDepth 200000 in
/-- C3, counterexample to the claim as stated: with `CENT = 1000000`, target
`5000000` and candidates `{4999999, 2, 6000005}`, both the single larger
candidate (`6000005`) and the approximation's result (`nBest = 5000001`, the
whole small partition) exist, the approximation is not exact, and the larger
candidate is strictly farther from the target (`1000005 > 1`), yet
`SelectCoinsMinConf` selects the larger candidate: the code also prefers the
larger coin whenever the inexact approximation lands within one CENT above
the target. -/
theorem claim_C3_counterexample :
    SelectCoinsMinConf 1000000 (fun l => l) (fun _ _ => false) (fun _ _ => false)
        5000000 10 1 1 [⟨4999999, true, 3, 0⟩, ⟨2, true, 3, 0⟩, ⟨6000005, true, 3, 0⟩] =
      some ([⟨6000005, true, 3, 0⟩], 6000005) ∧
    scanCoins 1000000 5000000 10 1 1
        [⟨4999999, true, 3, 0⟩, ⟨2, true, 3, 0⟩, ⟨6000005, true, 3, 0⟩] initScan =
      .inr ⟨[⟨4999999, true, 3, 0⟩, ⟨2, true, 3, 0⟩], 5000001, 6000005,
        some ⟨6000005, true, 3, 0⟩⟩ ∧
    absFull (fun _ _ => false) (fun _ _ => false) [4999999, 2] 5000001 5000000 1000000 =
      ([true, true], 5000001) ∧
    ((5000001 : Int) ≠ 5000000) ∧
    ¬ ((6000005 - 5000000 : Int) ≤ 5000001 - 5000000) := by
  refine ⟨by decide, by decide, by decide, by decide, by decide⟩

/-- C3 (amended): when the scan falls through with `nTotalLower > target` and
a lowest larger candidate `cL` exists, `SelectCoinsMinConf` returns the single
larger candidate exactly when the stochastic approximation is not exact AND
(its total lies within one CENT above the target OR the larger candidate's
value is at most the approximation's total); otherwise the approximation's
subset is returned. -/
theorem claim_C3_tiebreak (cent target : Int) (sp : Nat) (cm ct : Int)
    (vCoins : List Candidate) (shuffle : List Candidate → List Candidate)
    (rng1 rng2 : Nat → Nat → Bool) (st : ScanState) (cL : Candidate)
    (hcent : 0 < cent)
    (hscan : scanCoins cent target sp cm ct (shuffle vCoins) initScan = .inr st)
    (hgt : target < st.nTotalLower)
    (hlow : st.lowLarger = some cL) :
    (SelectCoinsMinConf cent shuffle rng1 rng2 target sp cm ct vCoins =
        some ([cL], st.lowLargerVal) ↔
      ((absFull rng1 rng2 ((sortDesc st.vValue).map Candidate.value)
          st.nTotalLower target cent).2 ≠ target ∧
        ((absFull rng1 rng2 ((sortDesc st.vValue).map Candidate.value)
            st.nTotalLower target cent).2 < target + cent ∨
          cL.value ≤ (absFull rng1 rng2 ((sortDesc st.vValue).map Candidate.value)
            st.nTotalLower target cent).2))) ∧
    (¬ ((absFull rng1 rng2 ((sortDesc st.vValue).map Candidate.value)
          st.nTotalLower target cent).2 ≠ target ∧
        ((absFull rng1 rng2 ((sortDesc st.vValue).map Candidate.value)
            st.nTotalLower target cent).2 < target + cent ∨
          cL.value ≤ (absFull rng1 rng2 ((sortDesc st.vValue).map Candidate.value)
            st.nTotalLower target cent).2)) →
      SelectCoinsMinConf cent shuffle rng1 rng2 target sp cm ct vCoins =
        some (pickFlags (sortDesc st.vValue)
            (absFull rng1 rng2 ((sortDesc st.vValue).map Candidate.value)
              st.nTotalLower target cent).1,
          sumVals (pickFlags (sortDesc st.vValue)
            (absFull rng1 rng2 ((sortDesc st.vValue).map Candidate.value)
              st.nTotalLower target cent).1))) := by
  have hinv := scan_inr_larger_inv cent target sp cm ct (shuffle vCoins) initScan st hscan
    (by intro c hc; simp [initScan] at hc) cL hlow
  have hspec := scan_inr_spec cent target sp cm ct (shuffle vCoins) initScan st hscan
  simp only [initScan, List.nil_append, zero_add] at hspec
  have hresult : SelectCoinsMinConf cent shuffle rng1 rng2 target sp cm ct vCoins =
      minConfLarge cent target st.lowLargerVal st.lowLarger (sortDesc st.vValue)
        (absFull rng1 rng2 ((sortDesc st.vValue).map Candidate.value)
          st.nTotalLower target cent) := by
    simp only [SelectCoinsMinConf, hscan]
    rw [if_neg (by omega), if_neg (by omega)]
  set r := absFull rng1 rng2 ((sortDesc st.vValue).map Candidate.value)
    st.nTotalLower target cent with hrdef
  have hcond_iff : ((r.2 ≠ target ∧ r.2 < target + cent) ∨ st.lowLargerVal ≤ r.2) ↔
      (r.2 ≠ target ∧ (r.2 < target + cent ∨ cL.value ≤ r.2)) := by
    constructor
    · rintro (⟨hne, hlt⟩ | hle)
      · exact ⟨hne, Or.inl hlt⟩
      · rw [hinv.1] at hle
        have := hinv.2
        exact ⟨by omega, Or.inr hle⟩
    · rintro ⟨hne, hlt | hle⟩
      · exact Or.inl ⟨hne, hlt⟩
      · right
        rw [hinv.1]
        exact hle
  have hsubset_ne : ¬ (some (pickFlags (sortDesc st.vValue) r.1,
      sumVals (pickFlags (sortDesc st.vValue) r.1)) = some ([cL], st.lowLargerVal)) := by
    intro heq
    simp only [Option.some.injEq, Prod.mk.injEq] at heq
    have hmem : cL ∈ pickFlags (sortDesc st.vValue) r.1 := by
      rw [heq.1]
      exact List.mem_singleton.mpr rfl
    have hmem2 : cL ∈ st.vValue :=
      (sortDesc_perm st.vValue).mem_iff.mp (pickFlags_mem (sortDesc st.vValue) r.1 cL hmem)
    rw [hspec.1] at hmem2
    have hsm := (List.mem_filter.mp hmem2).2
    simp only [smallP, Bool.and_eq_true, decide_eq_true_eq] at hsm
    have := hinv.2
    omega
  rw [hresult, hlow]
  simp only [minConfLarge]
  by_cases hc : (r.2 ≠ target ∧ r.2 < target + cent) ∨ st.lowLargerVal ≤ r.2
  · rw [if_pos hc]
    exact ⟨⟨fun _ => hcond_iff.mp hc, fun _ => rfl⟩, fun hn => absurd (hcond_iff.mp hc) hn⟩
  · rw [if_neg hc]
    refine ⟨⟨fun heq => absurd heq hsubset_ne, fun hcl => absurd (hcond_iff.mpr hcl) hc⟩, ?_⟩
    intro _
    rfl

set_option maxRecDepth 400000 in
/-- C3 witness: the amended tie-break applied to target 110 with candidates
`{30, 80, 5, 200}` and `CENT = 1`: the approximation finds the exact subset
`{80, 30}` (total 110), the tie-break condition is false, and the subset is
returned. -/
theorem claim_C3_tiebreak_witness :
    ((SelectCoinsMinConf 1 (fun l => l) (fun _ _ => false) (fun _ _ => false) 110 10 1 1
          [⟨30, true, 3, 0⟩, ⟨80, true, 3, 0⟩, ⟨5, true, 3, 0⟩, ⟨200, true, 3, 0⟩] =
        some ([⟨200, true, 3, 0⟩], 200) ↔
      ((absFull (fun _ _ => false) (fun _ _ => false)
          ((sortDesc [⟨30, true, 3, 0⟩, ⟨80, true, 3, 0⟩, ⟨5, true, 3, 0⟩]).map
            Candidate.value) 115 110 1).2 ≠ 110 ∧
        ((absFull (fun _ _ => false) (fun _ _ => false)
            ((sortDesc [⟨30, true, 3, 0⟩, ⟨80, true, 3, 0⟩, ⟨5, true, 3, 0⟩]).map
              Candidate.value) 115 110 1).2 < 110 + 1 ∨
          Candidate.value ⟨200, true, 3, 0⟩ ≤
            (absFull (fun _ _ => false) (fun _ _ => false)
              ((sortDesc [⟨30, true, 3, 0⟩, ⟨80, true, 3, 0⟩, ⟨5, true, 3, 0⟩]).map
                Candidate.value) 115 110 1).2))) ∧
    SelectCoinsMinConf 1 (fun l => l) (fun _ _ => false) (fun _ _ => false) 110 10 1 1
        [⟨30, true, 3, 0⟩, ⟨80, true, 3, 0⟩, ⟨5, true, 3, 0⟩, ⟨200, true, 3, 0⟩] =
      some (pickFlags (sortDesc [⟨30, true, 3, 0⟩, ⟨80, true, 3, 0⟩, ⟨5, true, 3, 0⟩])
          (absFull (fun _ _ => false) (fun _ _ => false)
            ((sortDesc [⟨30, true, 3, 0⟩, ⟨80, true, 3, 0⟩, ⟨5, true, 3, 0⟩]).map
              Candidate.value) 115 110 1).1,
        sumVals (pickFlags (sortDesc [⟨30, true, 3, 0⟩, ⟨80, true, 3, 0⟩, ⟨5, true, 3, 0⟩])
          (absFull (fun _ _ => false) (fun _ _ => false)
            ((sortDesc [⟨30, true, 3, 0⟩, ⟨80, true, 3, 0⟩, ⟨5, true, 3, 0⟩]).map
              Candidate.value) 115 110 1).1))) :=
  ⟨(claim_C3_tiebreak 1 110 10 1 1
      [⟨30, true, 3, 0⟩, ⟨80, true, 3, 0⟩, ⟨5, true, 3, 0⟩, ⟨200, true, 3, 0⟩]
      (fun l => l) (fun _ _ => false) (fun _ _ => false)
      ⟨[⟨30, true, 3, 0⟩, ⟨80, true, 3, 0⟩, ⟨5, true, 3, 0⟩], 115, 200, some ⟨200, true, 3, 0⟩⟩
      ⟨200, true, 3, 0⟩ (by decide) (by decide) (by decide) rfl).1,
    (claim_C3_tiebreak 1 110 10 1 1
      [⟨30, true, 3, 0⟩, ⟨80, true, 3, 0⟩, ⟨5, true, 3, 0⟩, ⟨200, true, 3, 0⟩]
      (fun l => l) (fun _ _ => false) (fun _ _ => false)
      ⟨[⟨30, true, 3, 0⟩, ⟨80, true, 3, 0⟩, ⟨5, true, 3, 0⟩], 115, 200, some ⟨200, true, 3, 0⟩⟩
      ⟨200, true, 3, 0⟩ (by decide) (by decide) (by decide) rfl).2 (by decide)⟩

/-! ### CWallet::CreateTransaction (the fee-convergence loop)

Scripts are opaque identifiers (`Nat`); the collaborator services the loop
calls — `SelectCoins` (when no fixed input set is supplied), `GetBaseFee`,
`GetMinFee`, `GetSerializeSize`, `SignSignature`, `GetRandInt`,
`reservekey.GetReservedKey`, `ExtractDestination` — are oracle parameters
collected in `CtxParams`. -/

/-- A member of a `set<pair<const CWalletTx*, unsigned int>>` input set:
the identity of the previous transaction, the output index, and that
output's value. -/
structure CoinM where
  hashId : Nat
  n : Nat
  value : Int
deriving DecidableEq, Repr

/-- A `CTxOut` of the transaction being built. -/
structure TxOutM where
  nValue : Int
  scriptPubKey : Nat
deriving DecidableEq, Repr

/-- A `CTxIn` of the transaction being built (`CTxIn(hash, n)`). -/
structure TxInM where
  prevHash : Nat
  prevN : Nat
deriving DecidableEq, Repr

/-- Total value of an input set (the `nValueIn` accumulation over
`setCoins_in`). -/
def sumCoins (cs : List CoinM) : Int := (cs.map CoinM.value).sum

/-- The observable outcome of a successful build: `wtxNew.vout`,
`wtxNew.vin`, and the final `nFeeRet`. -/
structure TxResult where
  vout : List TxOutM
  vin : List TxInM
  feeRet : Int
deriving DecidableEq, Repr

/-- The failure modes of `CreateTransaction` (each a `return error(...)` or
`return false`); `fuelExhausted` is the modelling artifact standing for a
`while (true)` loop that has not exited within the given fuel. -/
inductive CtxErr where
  | invalidAmount
  | selectFailed
  | insufficientFixedInputs
  | keypoolExhausted
  | signFailed
  | oversize
  | fuelExhausted
deriving DecidableEq, Repr

/-- Outcome of one iteration of the fee loop: a hard failure, a `continue`
with a raised fee, or a completed transaction. -/
inductive StepRes where
  | err (e : CtxErr)
  | retry (newFee : Int)
  | done (r : TxResult)
deriving DecidableEq, Repr

/-- The inputs and collaborator oracles of one `CreateTransaction` call.
`messageFee` is the `message_fee` burn amount (zero when the transaction
carries no MESSAGE contract); `provided` is `setCoins_in`. -/
structure CtxParams where
  cent : Int
  vecSend : List (Nat × Int)
  messageFee : Int
  provided : List CoinM
  selectCoins : Int → Option (List CoinM × Int)
  nTransactionFee : Int
  baseFee : Int
  coinControlChange : Option Nat
  changeBackToInput : Bool
  inputChangeScript : List CoinM → Nat
  reserveOk : Bool
  freshScript : Nat
  opretScript : Nat
  randInt : Nat → Nat
  signOk : CoinM → Bool
  txBytes : List TxInM → List TxOutM → Nat
  minFee : List TxInM → List TxOutM → Nat → Int
  maxStdSize : Nat

/-- `nValueOut`: the sum of the requested amounts plus the message burn
fee. -/
def nValueOutOf (P : CtxParams) : Int := (P.vecSend.map Prod.snd).sum + P.messageFee

/-- The outputs assembled before change handling: one `CTxOut` per payee in
order, plus the `OP_RETURN` burn output when `message_fee > 0`. -/
def baseVout (P : CtxParams) : List TxOutM :=
  P.vecSend.map (fun s => ⟨s.2, s.1⟩) ++
    (if P.messageFee > 0 then [⟨P.messageFee, P.opretScript⟩] else [])

/-- The per-payee overflow check of the pre-loop accumulation
(`if (nValueOut < 0) return error` before each addition). -/
def vecSendCheck : List Int → Int → Bool
  | [], _ => true
  | a :: rest, acc => if acc < 0 then false else vecSendCheck rest (acc + a)

/-- Input selection of one iteration: the caller-supplied set when present,
otherwise the `SelectCoins` oracle at `nTotalValue = nValueOut + nFeeRet`. -/
def stepValueIn (P : CtxParams) (f : Int) : Option (List CoinM × Int) :=
  if P.provided.isEmpty then P.selectCoins (nValueOutOf P + f)
  else some (P.provided, sumCoins P.provided)

/-- `nChange = nValueIn - nValueOut - nFeeRet` before the CENT adjustment. -/
def rawChangeOf (P : CtxParams) (f nValueIn : Int) : Int := nValueIn - nValueOutOf P - f

/-- `nMoveToFee`: when the fee is below `GetBaseFee` and the change is
positive sub-cent, move `min(nChange, GetBaseFee - nFeeRet)` into the fee. -/
def moveToFee (P : CtxParams) (f nChange : Int) : Int :=
  if f < P.baseFee ∧ 0 < nChange ∧ nChange < P.cent then min nChange (P.baseFee - f) else 0

/-- The change after the CENT adjustment. -/
def adjChangeOf (P : CtxParams) (f nValueIn : Int) : Int :=
  rawChangeOf P f nValueIn - moveToFee P f (rawChangeOf P f nValueIn)

/-- `nFeeRet` after the CENT adjustment. -/
def adjFeeOf (P : CtxParams) (f nValueIn : Int) : Int :=
  f + moveToFee P f (rawChangeOf P f nValueIn)

/-- Resolution of the change destination: the coin-control custom address if
set, else the first input address when change returns to an input address
(never fails; the script stays empty when no input yields one), else a fresh
key from the pool, which fails when the pool is exhausted. -/
def changeScriptOf (P : CtxParams) (selOut : List CoinM) : Option Nat :=
  match P.coinControlChange with
  | some s => some s
  | none =>
    if P.changeBackToInput then some (P.inputChangeScript selOut)
    else if P.reserveOk then some P.freshScript
    else none

/-- `vector::insert(begin() + n, a)`. -/
def insertAt (n : Nat) (a : α) : List α → List α
  | [] => [a]
  | x :: xs =>
    match n with
    | 0 => a :: x :: xs
    | m + 1 => x :: insertAt m a xs

/-- Change emission: when the adjusted change is positive, insert a change
output at position `GetRandInt(vout.size())`; `none` models the keypool
failure `return false`. -/
def voutWithChange (P : CtxParams) (selOut : List CoinM) (nChange : Int) :
    Option (List TxOutM) :=
  if 0 < nChange then
    match changeScriptOf P selOut with
    | none => none
    | some sc => some (insertAt (P.randInt (baseVout P).length) ⟨nChange, sc⟩ (baseVout P))
  else some (baseVout P)

/-- The `vin` filled from the selected coins. -/
def vinOf (setCoins : List CoinM) : List TxInM := setCoins.map (fun c => ⟨c.hashId, c.n⟩)

/-- `nPayFee = nTransactionFee * (1 + nBytes / 1000)`. -/
def payFeeOf (P : CtxParams) (nBytes : Nat) : Int :=
  P.nTransactionFee * (1 + (nBytes : Int) / 1000)

/-- One iteration of the `while (true)` fee loop of `CreateTransaction` at
current fee guess `f` (`nFeeRet`): select or take inputs, hard-fail when a
provided input set cannot cover the outputs plus the fee, apply the CENT
adjustment, emit change, sign, check the size ceiling, and either finish or
raise the fee and retry. -/
def createTxStep (P : CtxParams) (f : Int) : StepRes :=
  match stepValueIn P f with
  | none => .err .selectFailed
  | some (setCoins, nValueIn) =>
    if ¬ P.provided.isEmpty ∧ rawChangeOf P f nValueIn < 0 then
      .err .insufficientFixedInputs
    else
      match voutWithChange P (if P.provided.isEmpty then setCoins else [])
          (adjChangeOf P f nValueIn) with
      | none => .err .keypoolExhausted
      | some vout =>
        if ¬ setCoins.all P.signOk then .err .signFailed
        else if P.maxStdSize ≤ P.txBytes (vinOf setCoins) vout then .err .oversize
        else if adjFeeOf P f nValueIn <
            max (payFeeOf P (P.txBytes (vinOf setCoins) vout))
              (P.minFee (vinOf setCoins) vout (P.txBytes (vinOf setCoins) vout)) then
          .retry (max (payFeeOf P (P.txBytes (vinOf setCoins) vout))
            (P.minFee (vinOf setCoins) vout (P.txBytes (vinOf setCoins) vout)))
        else
          .done ⟨vout, vinOf setCoins, adjFeeOf P f nValueIn⟩

/-- The fee loop: iterate `createTxStep`, rebuilding from scratch at the
raised fee after each `continue`. -/
def createTxLoop (P : CtxParams) : Nat → Int → StepRes
  | 0, _ => .err .fuelExhausted
  | fuel + 1, f =>
    match createTxStep P f with
    | .retry f2 => createTxLoop P fuel f2
    | r => r

/-- `CWallet::CreateTransaction`: the pre-loop output amount checks followed
by the fee loop started at `nFeeRet = nTransactionFee`. -/
def createTransaction (P : CtxParams) (fuel : Nat) : StepRes :=
  if ¬ vecSendCheck (P.vecSend.map Prod.snd) 0 then .err .invalidAmount
  else if P.vecSend.isEmpty ∨ (P.vecSend.map Prod.snd).sum < 0 then .err .invalidAmount
  else createTxLoop P fuel P.nTransactionFee

lemma moveToFee_nonneg (P : CtxParams) (f c : Int) : 0 ≤ moveToFee P f c := by
  unfold moveToFee
  split
  · next h => omega
  · omega

lemma insertAt_length (a : α) : ∀ (n : Nat) (l : List α), (insertAt n a l).length = l.length + 1 := by
  intro n l
  induction l generalizing n with
  | nil => cases n <;> rfl
  | cons x xs ih =>
    cases n with
    | zero => rfl
    | succ m => simp [insertAt, ih m]

lemma voutWithChange_length (P : CtxParams) (selOut : List CoinM) (c : Int)
    (vout : List TxOutM) (h : voutWithChange P selOut c = some vout) :
    vout.length = (baseVout P).length + (if 0 < c then 1 else 0) := by
  unfold voutWithChange at h
  by_cases hc : 0 < c
  · rw [if_pos hc] at h
    cases hsc : changeScriptOf P selOut with
    | none =>
      simp only [hsc] at h
      exact absurd h (by simp)
    | some sc =>
      simp only [hsc, Option.some.injEq] at h
      rw [if_pos hc, ← h, insertAt_length]
  · rw [if_neg hc] at h
    simp only [Option.some.injEq] at h
    rw [if_neg hc, ← h]
    omega

/-! ### Claims C4 and C5 -/

/-- C5: in the fee loop, a caller-supplied fixed input set whose total cannot
cover the requested outputs plus the current fee (negative change) makes the
iteration, and hence the whole loop, fail hard with the
insufficient-fixed-inputs error; with no fixed input set, an iteration that
ends in a fee shortfall strictly raises the fee guess and the loop retries
selection from scratch at the raised fee. -/
theorem claim_C5_fixed_input_shortfall (P : CtxParams) (f : Int) (fuel : Nat) :
    (P.provided ≠ [] → sumCoins P.provided - nValueOutOf P - f < 0 →
      createTxStep P f = .err .insufficientFixedInputs ∧
      createTxLoop P (fuel + 1) f = .err .insufficientFixedInputs) ∧
    (P.provided = [] → ∀ f2, createTxStep P f = .retry f2 →
      f < f2 ∧ createTxLoop P (fuel + 1) f = createTxLoop P fuel f2) := by
  constructor
  · intro hne hshort
    have hsel : stepValueIn P f = some (P.provided, sumCoins P.provided) := by
      unfold stepValueIn
      rw [if_neg (by simp [List.isEmpty_iff, hne])]
    have hstep : createTxStep P f = .err .insufficientFixedInputs := by
      simp only [createTxStep, hsel]
      rw [if_pos ⟨by simp [List.isEmpty_iff, hne], hshort⟩]
    refine ⟨hstep, ?_⟩
    simp only [createTxLoop, hstep]
  · intro hprov f2 h
    have hpe : P.provided.isEmpty = true := by simp [List.isEmpty_iff, hprov]
    rcases hsel : stepValueIn P f with _ | ⟨setCoins, vIn⟩
    · simp only [createTxStep, hsel] at h
      exact absurd h (by simp)
    · simp only [createTxStep, hsel] at h
      rw [if_neg (by simp [hpe])] at h
      rcases hvout : voutWithChange P (if P.provided.isEmpty then setCoins else [])
          (adjChangeOf P f vIn) with _ | vout
      · simp only [hvout] at h
        exact absurd h (by simp)
      · simp only [hvout] at h
        by_cases hsign : ¬ setCoins.all P.signOk = true
        · rw [if_pos hsign] at h
          exact absurd h (by simp)
        · rw [if_neg hsign] at h
          by_cases hsize : P.maxStdSize ≤ P.txBytes (vinOf setCoins) vout
          · rw [if_pos hsize] at h
            exact absurd h (by simp)
          · rw [if_neg hsize] at h
            by_cases hflt : adjFeeOf P f vIn <
                max (payFeeOf P (P.txBytes (vinOf setCoins) vout))
                  (P.minFee (vinOf setCoins) vout (P.txBytes (vinOf setCoins) vout))
            · rw [if_pos hflt] at h
              have hf2 : f2 = max (payFeeOf P (P.txBytes (vinOf setCoins) vout))
                  (P.minFee (vinOf setCoins) vout (P.txBytes (vinOf setCoins) vout)) := by
                cases h
                rfl
              constructor
              · rw [hf2]
                have hm := moveToFee_nonneg P f (rawChangeOf P f vIn)
                unfold adjFeeOf at hflt
                omega
              · have hret : createTxStep P f = .retry f2 := by
                  simp only [createTxStep, hsel]
                  rw [if_neg (by simp [hpe])]
                  simp only [hvout]
                  rw [if_neg hsign, if_neg hsize, if_pos hflt, hf2]
                simp only [createTxLoop, hret]
            · rw [if_neg hflt] at h
              exact absurd h (by simp)

/-- A concrete builder-parameter block used by the transaction-builder
witnesses and counterexample: one payee of value 100, a single provided input
of value `v`, a starting and base fee of 10, a flat serialized size of 100
bytes, no message contract and a custom change destination. -/
def sampleParams (v : Int) : CtxParams :=
  { cent := 1000000, vecSend := [(7, 100)], messageFee := 0,
    provided := [⟨1, 0, v⟩], selectCoins := fun _ => none,
    nTransactionFee := 10, baseFee := 10, coinControlChange := some 99,
    changeBackToInput := false, inputChangeScript := fun _ => 0,
    reserveOk := true, freshScript := 5, opretScript := 6,
    randInt := fun _ => 0, signOk := fun _ => true,
    txBytes := fun _ _ => 100, minFee := fun _ _ _ => 0,
    maxStdSize := 100000 }

/-- A builder-parameter block with no provided input set: the selection
oracle returns an input of 200 for any target, and the minimum relay fee is
25, above the starting fee of 10, forcing one retry. -/
def sampleParamsBare : CtxParams :=
  { cent := 1000000, vecSend := [(7, 100)], messageFee := 0,
    provided := [], selectCoins := fun _ => some ([⟨1, 0, 200⟩], 200),
    nTransactionFee := 10, baseFee := 10, coinControlChange := some 99,
    changeBackToInput := false, inputChangeScript := fun _ => 0,
    reserveOk := true, freshScript := 5, opretScript := 6,
    randInt := fun _ => 0, signOk := fun _ => true,
    txBytes := fun _ _ => 100, minFee := fun _ _ _ => 25,
    maxStdSize := 100000 }

/-- C5 witness: a provided input of 50 against an output of 100 plus fee 10
fails hard with `insufficientFixedInputs` in both the iteration and the
loop; and with no provided set and a minimum fee of 25, the first iteration
raises the fee from 10 to 25 and the loop retries at 25. -/
theorem claim_C5_fixed_input_shortfall_witness :
    (createTxStep (sampleParams 50) 10 = .err .insufficientFixedInputs ∧
      createTxLoop (sampleParams 50) (3 + 1) 10 = .err .insufficientFixedInputs) ∧
    ((10 : Int) < 25 ∧
      createTxLoop sampleParamsBare (3 + 1) 10 = createTxLoop sampleParamsBare 3 25) :=
  ⟨(claim_C5_fixed_input_shortfall (sampleParams 50) 10 3).1 (by decide) (by decide),
    (claim_C5_fixed_input_shortfall sampleParamsBare 10 3).2 (by decide) 25 (by decide)⟩

/-- C4, counterexample to the claim as stated: with a provided input of 115,
an output of 100 and fee 10, the computed change (5) is positive and far
below `CENT = 1000000`, yet the finished transaction still carries a change
output of value 5 and the fee stays at 10: because `nFeeRet` already equals
`GetBaseFee`, the sub-cent fold of `CreateTransaction` does not run at all. -/
theorem claim_C4_counterexample :
    createTransaction (sampleParams 115) 5 =
      .done ⟨[⟨5, 99⟩, ⟨100, 7⟩], [⟨1, 0⟩], 10⟩ ∧
    rawChangeOf (sampleParams 115) 10 (sumCoins (sampleParams 115).provided) = 5 ∧
    (0 : Int) < 5 ∧ (5 : Int) < (sampleParams 115).cent ∧
    ([⟨5, 99⟩, ⟨100, 7⟩] : List TxOutM).length = (baseVout (sampleParams 115)).length + 1 := by
  exact ⟨by decide, by decide, by decide, by decide, by decide⟩

/-- C4 (amended): on any completed iteration of the builder, the fee grows by
exactly `nMoveToFee` — which is `min(nChange, GetBaseFee - nFeeRet)` when the
fee is below the base fee and the change is positive sub-cent, and zero
otherwise — and a change output is emitted exactly when the change left after
that move is positive; sub-cent change is folded away entirely only when the
gap to the base fee covers it. -/
theorem claim_C4_change_handling (P : CtxParams) (f : Int) (setCoins : List CoinM)
    (vIn : Int) (r : TxResult)
    (hsel : stepValueIn P f = some (setCoins, vIn))
    (hdone : createTxStep P f = .done r) :
    r.feeRet = f + moveToFee P f (rawChangeOf P f vIn) ∧
    r.vout.length = (baseVout P).length + (if 0 < adjChangeOf P f vIn then 1 else 0) := by
  simp only [createTxStep, hsel] at hdone
  by_cases hfix : ¬ P.provided.isEmpty ∧ rawChangeOf P f vIn < 0
  · rw [if_pos hfix] at hdone
    exact absurd hdone (by simp)
  · rw [if_neg hfix] at hdone
    rcases hvout : voutWithChange P (if P.provided.isEmpty then setCoins else [])
        (adjChangeOf P f vIn) with _ | vout
    · simp only [hvout] at hdone
      exact absurd hdone (by simp)
    · simp only [hvout] at hdone
      by_cases hsign : ¬ setCoins.all P.signOk = true
      · rw [if_pos hsign] at hdone
        exact absurd hdone (by simp)
      · rw [if_neg hsign] at hdone
        by_cases hsize : P.maxStdSize ≤ P.txBytes (vinOf setCoins) vout
        · rw [if_pos hsize] at hdone
          exact absurd hdone (by simp)
        · rw [if_neg hsize] at hdone
          by_cases hflt : adjFeeOf P f vIn <
              max (payFeeOf P (P.txBytes (vinOf setCoins) vout))
                (P.minFee (vinOf setCoins) vout (P.txBytes (vinOf setCoins) vout))
          · rw [if_pos hflt] at hdone
            exact absurd hdone (by simp)
          · rw [if_neg hflt] at hdone
            cases hdone
            constructor
            · rfl
            · exact voutWithChange_length P _ _ vout hvout

/-- C4 witness: the amended characterization applied to the concrete run with
provided input 115 (change 5, base fee already met: nothing is folded and a
change output is emitted). -/
theorem claim_C4_change_handling_witness :
    (⟨[⟨5, 99⟩, ⟨100, 7⟩], [⟨1, 0⟩], 10⟩ : TxResult).feeRet =
      10 + moveToFee (sampleParams 115) 10 (rawChangeOf (sampleParams 115) 10 115) ∧
    (⟨[⟨5, 99⟩, ⟨100, 7⟩], [⟨1, 0⟩], 10⟩ : TxResult).vout.length =
      (baseVout (sampleParams 115)).length +
        (if 0 < adjChangeOf (sampleParams 115) 10 115 then 1 else 0) :=
  claim_C4_change_handling (sampleParams 115) 10 [⟨1, 0, 115⟩] 115
    ⟨[⟨5, 99⟩, ⟨100, 7⟩], [⟨1, 0⟩], 10⟩ (by decide) (by decide)

/-! ### Staking selection: AvailableCoinsForStaking / SelectCoinsForStaking

Collaborator results (`IsSpent`, `IsMine`, `GetDepthInMainChain`,
`AreDependenciesConfirmed`, `IsCoinBase`, `IsCoinStake`) are fields of the
wallet-transaction record; `nCoinbaseMaturity`, `nStakeMinAge`,
`nMinimumInputValue` and `nReserveBalance` are the external constants
gathered in `StakingParams`. -/

/-- One `CTxOut` of a wallet transaction as the staking scan reads it. -/
structure StakeOut where
  nValue : Int
  mine : Bool
  spent : Bool
deriving DecidableEq, Repr

/-- A wallet transaction (`CWalletTx`) as the staking scan reads it. -/
structure StakeTx where
  nTime : Nat
  isCoinBase : Bool
  isCoinStake : Bool
  fFromMe : Bool
  depsConfirmed : Bool
  depth : Int
  vout : List StakeOut
deriving DecidableEq, Repr

/-- `COutput(pcoin, i, nDepth)` as produced by `AvailableCoinsForStaking`. -/
structure COutputS where
  tx : StakeTx
  i : Nat
  nDepth : Int
deriving DecidableEq, Repr

/-- The external constants of the staking scan. -/
structure StakingParams where
  stakeMinAge : Nat
  coinbaseMaturity : Int
  minInputValue : Int
  reserveBalance : Int
deriving DecidableEq, Repr

/-- The value of the output a `COutputS` points at
(`pcoin->vout[i].nValue`). -/
def outValue (o : COutputS) : Int := (o.tx.vout.getD o.i ⟨0, false, false⟩).nValue

/-- The inner collection loop of `AvailableCoinsForStaking`: the output
indices (paired with the outputs) that are unspent, mine and of positive
value, starting at index `k`. -/
def possiblePairs : List StakeOut → Nat → List (Nat × StakeOut)
  | [], _ => []
  | o :: rest, k =>
    (if o.spent = false ∧ o.mine = true ∧ 0 < o.nValue then [(k, o)] else []) ++
      possiblePairs rest (k + 1)

/-- `possible_vCoins` of one transaction: collected only when the
pre-qualification `nDepth > 0 || (fFromMe && (AreDependenciesConfirmed() ||
IsCoinStake()))` passes. -/
def txPossible (tx : StakeTx) : List (Nat × StakeOut) :=
  if 0 < tx.depth ∨ (tx.fFromMe = true ∧ (tx.depsConfirmed = true ∨ tx.isCoinStake = true)) then
    possiblePairs tx.vout 0
  else []

/-- The contribution of one transaction to `balance_out`. -/
def txPossibleBalance (tx : StakeTx) : Int :=
  ((txPossible tx).map (fun p => p.2.nValue)).sum

/-- The outputs of one transaction that survive the staking filters: the
timestamp rule `nTime + nStakeMinAge <= nSpendTime`, the maturity rule
(`max(0, (nCoinbaseMaturity + 10) - nDepth) == 0` for coinbase/coinstake,
`nDepth >= 1` otherwise) and the minimum input value. -/
def txStakingOuts (Q : StakingParams) (spendTime : Nat) (tx : StakeTx) : List COutputS :=
  if txPossible tx = [] then []
  else if spendTime < tx.nTime + Q.stakeMinAge then []
  else if tx.isCoinBase = true ∨ tx.isCoinStake = true then
    if 0 < max 0 (Q.coinbaseMaturity + 10 - tx.depth) then []
    else ((txPossible tx).filter (fun p => Q.minInputValue ≤ p.2.nValue)).map
      (fun p => ⟨tx, p.1, tx.depth⟩)
  else if tx.depth < 1 then []
  else ((txPossible tx).filter (fun p => Q.minInputValue ≤ p.2.nValue)).map
    (fun p => ⟨tx, p.1, tx.depth⟩)

/-- `CWallet::AvailableCoinsForStaking`: one pass over the whole wallet map,
returning the collected stakable outputs and `balance_out` (which accumulates
onto the caller-passed value, as in the source, where `balance_out` is a
reference parameter that is never zeroed). -/
def availableCoinsForStaking (Q : StakingParams) (wallet : List StakeTx)
    (spendTime : Nat) (balanceIn : Int) : List COutputS × Int :=
  wallet.foldl
    (fun acc tx => (acc.1 ++ txStakingOuts Q spendTime tx, acc.2 + txPossibleBalance tx))
    ([], balanceIn)

/-- `GRC::MinerStatus::ErrorFlags` restricted to the values
`SelectCoinsForStaking` assigns; `other` stands for any prior value of the
caller's flag. -/
inductive MinerErr where
  | NO_COINS
  | ENTIRE_BALANCE_RESERVED
  | NO_MATURE_COINS
  | NO_UTXOS_AVAILABLE_DUE_TO_RESERVE
  | other
deriving DecidableEq, Repr

/-- The outcome of `SelectCoinsForStaking`: the returned `bool`, the
`vCoinsRet` out-parameter, the `not_staking_error` out-parameter and
`balance_out`. -/
structure StakeSelRes where
  ok : Bool
  vCoinsRet : List COutputS
  flag : MinerErr
  balance : Int
deriving DecidableEq, Repr

/-- The UTXOs the engine can afford to consume alone:
`BalanceToConsider >= pcoin->vout[i].nValue`. -/
def keptOf (Q : StakingParams) (vCoins : List COutputS) (balanceOut : Int) : List COutputS :=
  vCoins.filter (fun o => decide (outValue o ≤ balanceOut - Q.reserveBalance))

/-- The decision chain of `SelectCoinsForStaking` on the result of
`AvailableCoinsForStaking`: no balance, entire balance reserved, no mature
coins, no UTXO surviving the reserve test, else success with the kept UTXOs,
shuffled for the miner. The error flag is written only when `fMiner` is set,
and `vCoinsRet` is left untouched (`vCoinsRetIn`) on the first three failure
paths, exactly as in the source. -/
def stakeSelect (Q : StakingParams) (σ : List COutputS → List COutputS)
    (vCoinsRetIn : List COutputS) (errIn : MinerErr) (fMiner : Bool) :
    List COutputS × Int → StakeSelRes
  | (vCoins, balanceOut) =>
    if balanceOut ≤ 0 then
      ⟨false, vCoinsRetIn, if fMiner then .NO_COINS else errIn, balanceOut⟩
    else if balanceOut - Q.reserveBalance ≤ 0 then
      ⟨false, vCoinsRetIn, if fMiner then .ENTIRE_BALANCE_RESERVED else errIn, balanceOut⟩
    else if vCoins = [] then
      ⟨false, vCoinsRetIn, if fMiner then .NO_MATURE_COINS else errIn, balanceOut⟩
    else if keptOf Q vCoins balanceOut = [] then
      ⟨false, [], if fMiner then .NO_UTXOS_AVAILABLE_DUE_TO_RESERVE else errIn, balanceOut⟩
    else
      ⟨true, if fMiner then σ (keptOf Q vCoins balanceOut) else keptOf Q vCoins balanceOut,
        errIn, balanceOut⟩

/-- `CWallet::SelectCoinsForStaking`: run the availability scan, then the
decision chain; `σ` is the `Shuffle` applied for the miner. -/
def selectCoinsForStaking (Q : StakingParams) (σ : List COutputS → List COutputS)
    (wallet : List StakeTx) (spendTime : Nat) (vCoinsRetIn : List COutputS)
    (errIn : MinerErr) (balanceIn : Int) (fMiner : Bool) : StakeSelRes :=
  stakeSelect Q σ vCoinsRetIn errIn fMiner
    (availableCoinsForStaking Q wallet spendTime balanceIn)

lemma mem_txStakingOuts (Q : StakingParams) (spendTime : Nat) (tx : StakeTx)
    (o : COutputS) (h : o ∈ txStakingOuts Q spendTime tx) :
    o.tx = tx ∧ tx.nTime + Q.stakeMinAge ≤ spendTime ∧
      ((tx.isCoinBase = true ∨ tx.isCoinStake = true) → Q.coinbaseMaturity + 10 ≤ tx.depth) ∧
      (tx.isCoinBase = false ∧ tx.isCoinStake = false → 1 ≤ tx.depth) := by
  unfold txStakingOuts at h
  by_cases h0 : txPossible tx = []
  · rw [if_pos h0] at h
    simp at h
  · rw [if_neg h0] at h
    by_cases h1 : spendTime < tx.nTime + Q.stakeMinAge
    · rw [if_pos h1] at h
      simp at h
    · rw [if_neg h1] at h
      by_cases h2 : tx.isCoinBase = true ∨ tx.isCoinStake = true
      · rw [if_pos h2] at h
        by_cases h3 : 0 < max 0 (Q.coinbaseMaturity + 10 - tx.depth)
        · rw [if_pos h3] at h
          simp at h
        · rw [if_neg h3] at h
          rcases List.mem_map.mp h with ⟨p, _, hpo⟩
          refine ⟨by rw [← hpo], by omega, fun _ => by omega, fun hcn => ?_⟩
          rcases h2 with hcb | hcs
          · exact absurd hcb (by simp [hcn.1])
          · exact absurd hcs (by simp [hcn.2])
      · rw [if_neg h2] at h
        by_cases h4 : tx.depth < 1
        · rw [if_pos h4] at h
          simp at h
        · rw [if_neg h4] at h
          rcases List.mem_map.mp h with ⟨p, _, hpo⟩
          exact ⟨by rw [← hpo], by omega, fun hc => absurd hc h2, fun _ => by omega⟩

lemma mem_availableCoinsForStaking (Q : StakingParams) (spendTime : Nat) :
    ∀ (wallet : List StakeTx) (acc : List COutputS) (b : Int) (o : COutputS),
      o ∈ (wallet.foldl
        (fun acc tx => (acc.1 ++ txStakingOuts Q spendTime tx, acc.2 + txPossibleBalance tx))
        (acc, b)).1 →
      o ∈ acc ∨ ∃ tx ∈ wallet, o ∈ txStakingOuts Q spendTime tx := by
  intro wallet
  induction wallet with
  | nil => intro acc b o h; exact Or.inl h
  | cons tx rest ih =>
    intro acc b o h
    rw [List.foldl_cons] at h
    rcases ih (acc ++ txStakingOuts Q spendTime tx) (b + txPossibleBalance tx) o h with hacc | ⟨t, ht, hto⟩
    · rcases List.mem_append.mp hacc with h1 | h2
      · exact Or.inl h1
      · exact Or.inr ⟨tx, List.mem_cons_self tx rest, h2⟩
    · exact Or.inr ⟨t, List.mem_cons_of_mem tx ht, hto⟩

/-- C6: every output returned by staking selection (on a fresh `vCoinsRet`)
comes from a transaction past maturity (`depth ≥ nCoinbaseMaturity + 10` for
coinbase/coinstake, `depth ≥ 1` otherwise), has transaction time no later
than the requested spend time (the scan even requires
`nTime + nStakeMinAge ≤ nSpendTime`), and has value not exceeding the
eligible balance minus the reserve balance. -/
theorem claim_C6_staking_soundness (Q : StakingParams) (σ : List COutputS → List COutputS)
    (wallet : List StakeTx) (spendTime : Nat) (errIn : MinerErr) (balanceIn : Int)
    (fMiner : Bool) (o : COutputS)
    (hσ : ∀ l, (σ l).Perm l)
    (hmem : o ∈ (selectCoinsForStaking Q σ wallet spendTime [] errIn balanceIn fMiner).vCoinsRet) :
    ((o.tx.isCoinBase = true ∨ o.tx.isCoinStake = true) →
      Q.coinbaseMaturity + 10 ≤ o.tx.depth) ∧
    (o.tx.isCoinBase = false ∧ o.tx.isCoinStake = false → 1 ≤ o.tx.depth) ∧
    o.tx.nTime ≤ spendTime ∧
    outValue o ≤
      (selectCoinsForStaking Q σ wallet spendTime [] errIn balanceIn fMiner).balance -
        Q.reserveBalance := by
  rcases havail : availableCoinsForStaking Q wallet spendTime balanceIn with ⟨vCoins, balOut⟩
  by_cases hb0 : balOut ≤ 0
  · have hres : selectCoinsForStaking Q σ wallet spendTime [] errIn balanceIn fMiner =
        ⟨false, [], if fMiner then .NO_COINS else errIn, balOut⟩ := by
      simp only [selectCoinsForStaking, havail, stakeSelect]
      rw [if_pos hb0]
    rw [hres] at hmem
    simp at hmem
  · by_cases hb1 : balOut - Q.reserveBalance ≤ 0
    · have hres : selectCoinsForStaking Q σ wallet spendTime [] errIn balanceIn fMiner =
          ⟨false, [], if fMiner then .ENTIRE_BALANCE_RESERVED else errIn, balOut⟩ := by
        simp only [selectCoinsForStaking, havail, stakeSelect]
        rw [if_neg hb0, if_pos hb1]
      rw [hres] at hmem
      simp at hmem
    · by_cases hb2 : vCoins = []
      · have hres : selectCoinsForStaking Q σ wallet spendTime [] errIn balanceIn fMiner =
            ⟨false, [], if fMiner then .NO_MATURE_COINS else errIn, balOut⟩ := by
          simp only [selectCoinsForStaking, havail, stakeSelect]
          rw [if_neg hb0, if_neg hb1, if_pos hb2]
        rw [hres] at hmem
        simp at hmem
      · by_cases hb3 : keptOf Q vCoins balOut = []
        · have hres : selectCoinsForStaking Q σ wallet spendTime [] errIn balanceIn fMiner =
              ⟨false, [], if fMiner then .NO_UTXOS_AVAILABLE_DUE_TO_RESERVE else errIn, balOut⟩ := by
            simp only [selectCoinsForStaking, havail, stakeSelect]
            rw [if_neg hb0, if_neg hb1, if_neg hb2, if_pos hb3]
          rw [hres] at hmem
          simp at hmem
        · have hres : selectCoinsForStaking Q σ wallet spendTime [] errIn balanceIn fMiner =
              ⟨true, if fMiner then σ (keptOf Q vCoins balOut) else keptOf Q vCoins balOut,
                errIn, balOut⟩ := by
            simp only [selectCoinsForStaking, havail, stakeSelect]
            rw [if_neg hb0, if_neg hb1, if_neg hb2, if_neg hb3]
          rw [hres] at hmem ⊢
          simp only at hmem ⊢
          have hkept : o ∈ keptOf Q vCoins balOut := by
            by_cases hf : fMiner = true
            · rw [if_pos hf] at hmem
              exact ((hσ (keptOf Q vCoins balOut)).mem_iff).mp hmem
            · rw [if_neg hf] at hmem
              exact hmem
          have hfil := List.mem_filter.mp hkept
          have hval : outValue o ≤ balOut - Q.reserveBalance := by
            have := hfil.2
            simpa using this
          have hvC : o ∈ (availableCoinsForStaking Q wallet spendTime balanceIn).1 := by
            rw [havail]
            exact hfil.1
          unfold availableCoinsForStaking at hvC
          rcases mem_availableCoinsForStaking Q spendTime wallet [] balanceIn o hvC with
            habs | ⟨tx, _, hto⟩
          · simp at habs
          · have hprops := mem_txStakingOuts Q spendTime tx o hto
            rw [hprops.1]
            exact ⟨hprops.2.2.1, hprops.2.2.2, by omega, hval⟩

/-- C7: with the miner flag set and a fresh `vCoinsRet`, a positive eligible
balance entirely covered by the reserve makes `SelectCoinsForStaking` fail,
return an empty output set and report `ENTIRE_BALANCE_RESERVED`; and whenever
it fails, the reported reason is exactly one of `NO_COINS`,
`ENTIRE_BALANCE_RESERVED`, `NO_MATURE_COINS`,
`NO_UTXOS_AVAILABLE_DUE_TO_RESERVE`. -/
theorem claim_C7_reserve_reason (Q : StakingParams) (σ : List COutputS → List COutputS)
    (wallet : List StakeTx) (spendTime : Nat) (errIn : MinerErr) (balanceIn : Int) :
    ((0 : Int) < (availableCoinsForStaking Q wallet spendTime balanceIn).2 →
      (availableCoinsForStaking Q wallet spendTime balanceIn).2 < Q.reserveBalance →
      selectCoinsForStaking Q σ wallet spendTime [] errIn balanceIn true =
        ⟨false, [], .ENTIRE_BALANCE_RESERVED,
          (availableCoinsForStaking Q wallet spendTime balanceIn).2⟩) ∧
    ((selectCoinsForStaking Q σ wallet spendTime [] errIn balanceIn true).ok = false →
      (selectCoinsForStaking Q σ wallet spendTime [] errIn balanceIn true).flag = .NO_COINS ∨
      (selectCoinsForStaking Q σ wallet spendTime [] errIn balanceIn true).flag =
        .ENTIRE_BALANCE_RESERVED ∨
      (selectCoinsForStaking Q σ wallet spendTime [] errIn balanceIn true).flag =
        .NO_MATURE_COINS ∨
      (selectCoinsForStaking Q σ wallet spendTime [] errIn balanceIn true).flag =
        .NO_UTXOS_AVAILABLE_DUE_TO_RESERVE) := by
  rcases havail : availableCoinsForStaking Q wallet spendTime balanceIn with ⟨vCoins, balOut⟩
  simp only
  constructor
  · intro hpos hres
    simp only [selectCoinsForStaking, havail, stakeSelect]
    rw [if_neg (by omega), if_pos (by omega)]
    simp
  · intro hfail
    by_cases hb0 : balOut ≤ 0
    · have hres : selectCoinsForStaking Q σ wallet spendTime [] errIn balanceIn true =
          ⟨false, [], .NO_COINS, balOut⟩ := by
        simp only [selectCoinsForStaking, havail, stakeSelect]
        rw [if_pos hb0]
        simp
      rw [hres]
      exact Or.inl rfl
    · by_cases hb1 : balOut - Q.reserveBalance ≤ 0
      · have hres : selectCoinsForStaking Q σ wallet spendTime [] errIn balanceIn true =
            ⟨false, [], .ENTIRE_BALANCE_RESERVED, balOut⟩ := by
          simp only [selectCoinsForStaking, havail, stakeSelect]
          rw [if_neg hb0, if_pos hb1]
          simp
        rw [hres]
        exact Or.inr (Or.inl rfl)
      · by_cases hb2 : vCoins = []
        · have hres : selectCoinsForStaking Q σ wallet spendTime [] errIn balanceIn true =
              ⟨false, [], .NO_MATURE_COINS, balOut⟩ := by
            simp only [selectCoinsForStaking, havail, stakeSelect]
            rw [if_neg hb0, if_neg hb1, if_pos hb2]
            simp
          rw [hres]
          exact Or.inr (Or.inr (Or.inl rfl))
        · by_cases hb3 : keptOf Q vCoins balOut = []
          · have hres : selectCoinsForStaking Q σ wallet spendTime [] errIn balanceIn true =
                ⟨false, [], .NO_UTXOS_AVAILABLE_DUE_TO_RESERVE, balOut⟩ := by
              simp only [selectCoinsForStaking, havail, stakeSelect]
              rw [if_neg hb0, if_neg hb1, if_neg hb2, if_pos hb3]
              simp
            rw [hres]
            exact Or.inr (Or.inr (Or.inr rfl))
          · have hres : selectCoinsForStaking Q σ wallet spendTime [] errIn balanceIn true =
                ⟨true, σ (keptOf Q vCoins balOut), errIn, balOut⟩ := by
              simp only [selectCoinsForStaking, havail, stakeSelect]
              rw [if_neg hb0, if_neg hb1, if_neg hb2, if_neg hb3]
              rfl
            rw [hres] at hfail
            simp at hfail

/-- C6 witness: a wallet with one ordinary transaction at depth 5 holding a
single mine/unspent output of value 10, stake-min-age 2, maturity 100,
reserve 0: the returned output satisfies all the soundness bounds. -/
theorem claim_C6_staking_soundness_witness :
    ((COutputS.tx ⟨⟨0, false, false, false, true, 5, [⟨10, true, false⟩]⟩, 0, 5⟩).isCoinBase =
        true ∨
      (COutputS.tx ⟨⟨0, false, false, false, true, 5, [⟨10, true, false⟩]⟩, 0, 5⟩).isCoinStake =
        true →
      (100 : Int) + 10 ≤
        (COutputS.tx ⟨⟨0, false, false, false, true, 5, [⟨10, true, false⟩]⟩, 0, 5⟩).depth) ∧
    ((COutputS.tx ⟨⟨0, false, false, false, true, 5, [⟨10, true, false⟩]⟩, 0, 5⟩).isCoinBase =
        false ∧
      (COutputS.tx ⟨⟨0, false, false, false, true, 5, [⟨10, true, false⟩]⟩, 0, 5⟩).isCoinStake =
        false →
      1 ≤ (COutputS.tx ⟨⟨0, false, false, false, true, 5, [⟨10, true, false⟩]⟩, 0, 5⟩).depth) ∧
    (COutputS.tx ⟨⟨0, false, false, false, true, 5, [⟨10, true, false⟩]⟩, 0, 5⟩).nTime ≤ 50 ∧
    outValue ⟨⟨0, false, false, false, true, 5, [⟨10, true, false⟩]⟩, 0, 5⟩ ≤
      (selectCoinsForStaking ⟨2, 100, 0, 0⟩ (fun l => l)
        [⟨0, false, false, false, true, 5, [⟨10, true, false⟩]⟩] 50 [] .other 0 true).balance -
        (0 : Int) :=
  claim_C6_staking_soundness ⟨2, 100, 0, 0⟩ (fun l => l)
    [⟨0, false, false, false, true, 5, [⟨10, true, false⟩]⟩] 50 .other 0 true
    ⟨⟨0, false, false, false, true, 5, [⟨10, true, false⟩]⟩, 0, 5⟩
    (fun l => List.Perm.refl l) (by decide)

/-- C7 witness: the same wallet with reserve 50 (> eligible balance 10)
fails with `ENTIRE_BALANCE_RESERVED` and an empty output set; the failing
run's reason is among the four codes. -/
theorem claim_C7_reserve_reason_witness :
    selectCoinsForStaking ⟨2, 100, 0, 50⟩ (fun l => l)
        [⟨0, false, false, false, true, 5, [⟨10, true, false⟩]⟩] 50 [] .other 0 true =
      ⟨false, [], .ENTIRE_BALANCE_RESERVED,
        (availableCoinsForStaking ⟨2, 100, 0, 50⟩
          [⟨0, false, false, false, true, 5, [⟨10, true, false⟩]⟩] 50 0).2⟩ ∧
    ((selectCoinsForStaking ⟨2, 100, 0, 50⟩ (fun l => l)
        [⟨0, false, false, false, true, 5, [⟨10, true, false⟩]⟩] 50 [] .other 0 true).flag =
        .NO_COINS ∨
      (selectCoinsForStaking ⟨2, 100, 0, 50⟩ (fun l => l)
        [⟨0, false, false, false, true, 5, [⟨10, true, false⟩]⟩] 50 [] .other 0 true).flag =
        .ENTIRE_BALANCE_RESERVED ∨
      (selectCoinsForStaking ⟨2, 100, 0, 50⟩ (fun l => l)
        [⟨0, false, false, false, true, 5, [⟨10, true, false⟩]⟩] 50 [] .other 0 true).flag =
        .NO_MATURE_COINS ∨
      (selectCoinsForStaking ⟨2, 100, 0, 50⟩ (fun l => l)
        [⟨0, false, false, false, true, 5, [⟨10, true, false⟩]⟩] 50 [] .other 0 true).flag =
        .NO_UTXOS_AVAILABLE_DUE_TO_RESERVE) :=
  ⟨(claim_C7_reserve_reason ⟨2, 100, 0, 50⟩ (fun l => l)
      [⟨0, false, false, false, true, 5, [⟨10, true, false⟩]⟩] 50 .other 0).1
      (by decide) (by decide),
    (claim_C7_reserve_reason ⟨2, 100, 0, 50⟩ (fun l => l)
      [⟨0, false, false, false, true, 5, [⟨10, true, false⟩]⟩] 50 .other 0).2
      (by decide)⟩

/-! ### CWallet::FixSpentCoins

The authoritative transaction index is read-only during the reconciliation,
so each wallet record carries the result of its `ReadTxIndex` lookup:
`none` when the index has no entry (the record is skipped), otherwise the
per-output list of "`vSpent[n]` is non-null" flags. -/

/-- One wallet output as the reconciliation reads it. -/
structure FOut where
  nValue : Int
  mine : Bool
  spent : Bool
deriving DecidableEq, Repr

/-- One wallet record with its transaction-index lookup result. -/
structure FTx where
  vout : List FOut
  txindex : Option (List Bool)
deriving DecidableEq, Repr

/-- Whether the authoritative index marks output `n` spent:
`txindex.vSpent.size() > n && !txindex.vSpent[n].IsNull()`. -/
def idxSpent (vSpent : List Bool) (n : Nat) : Bool := vSpent.getD n false

/-- The per-output body of `FixSpentCoins`: a locally-spent/mine output the
index calls unspent is a "lost coin" (repaired by `MarkUnspent`), a
locally-unspent/mine output the index calls spent is a "spent coin"
(repaired by `MarkSpent`); the result is the output, the mismatch count
contribution, and the value in question. -/
def fixOut (checkOnly : Bool) (vSpent : List Bool) (n : Nat) (o : FOut) :
    FOut × Nat × Int :=
  if o.mine = true ∧ o.spent = true ∧ idxSpent vSpent n = false then
    ({ o with spent := if checkOnly then o.spent else false }, 1, o.nValue)
  else if o.mine = true ∧ o.spent = false ∧ idxSpent vSpent n = true then
    ({ o with spent := if checkOnly then o.spent else true }, 1, o.nValue)
  else (o, 0, 0)

/-- The output loop of `FixSpentCoins` over one record, starting at index
`n`. -/
def fixOuts (checkOnly : Bool) (vSpent : List Bool) :
    Nat → List FOut → List FOut × Nat × Int
  | _, [] => ([], 0, 0)
  | n, o :: rest =>
    ((fixOut checkOnly vSpent n o).1 :: (fixOuts checkOnly vSpent (n + 1) rest).1,
      (fixOut checkOnly vSpent n o).2.1 + (fixOuts checkOnly vSpent (n + 1) rest).2.1,
      (fixOut checkOnly vSpent n o).2.2 + (fixOuts checkOnly vSpent (n + 1) rest).2.2)

/-- One record: skipped when `ReadTxIndex` fails. -/
def fixTxAux (checkOnly : Bool) (vout : List FOut) :
    Option (List Bool) → List FOut × Nat × Int
  | none => (vout, 0, 0)
  | some vSpent => fixOuts checkOnly vSpent 0 vout

/-- `CWallet::FixSpentCoins`: scan every record, compare each owned output's
local spent flag with the authoritative index, repair in-place unless
`fCheckOnly`, and return the new ledger with `nMismatchFound` and
`nBalanceInQuestion`. -/
def FixSpentCoins (checkOnly : Bool) : List FTx → List FTx × Nat × Int
  | [] => ([], 0, 0)
  | tx :: rest =>
    (⟨(fixTxAux checkOnly tx.vout tx.txindex).1, tx.txindex⟩ :: (FixSpentCoins checkOnly rest).1,
      (fixTxAux checkOnly tx.vout tx.txindex).2.1 + (FixSpentCoins checkOnly rest).2.1,
      (fixTxAux checkOnly tx.vout tx.txindex).2.2 + (FixSpentCoins checkOnly rest).2.2)

lemma fixOut_idem (vSpent : List Bool) (n : Nat) (o : FOut) :
    fixOut false vSpent n (fixOut false vSpent n o).1 = ((fixOut false vSpent n o).1, 0, 0) := by
  by_cases h1 : o.mine = true ∧ o.spent = true ∧ idxSpent vSpent n = false
  · have hin : (fixOut false vSpent n o).1 = { o with spent := false } := by
      unfold fixOut
      rw [if_pos h1]
      simp
    rw [hin]
    unfold fixOut
    rw [if_neg (by simp), if_neg (by simp [h1.2.2])]
  · by_cases h2 : o.mine = true ∧ o.spent = false ∧ idxSpent vSpent n = true
    · have hin : (fixOut false vSpent n o).1 = { o with spent := true } := by
        unfold fixOut
        rw [if_neg h1, if_pos h2]
        simp
      rw [hin]
      unfold fixOut
      rw [if_neg (by simp [h2.2.2]), if_neg (by simp)]
    · have hin : (fixOut false vSpent n o).1 = o := by
        unfold fixOut
        rw [if_neg h1, if_neg h2]
      rw [hin]
      unfold fixOut
      rw [if_neg h1, if_neg h2]

lemma fixOuts_idem (vSpent : List Bool) :
    ∀ (outs : List FOut) (n : Nat),
      fixOuts false vSpent n (fixOuts false vSpent n outs).1 =
        ((fixOuts false vSpent n outs).1, 0, 0) := by
  intro outs
  induction outs with
  | nil => intro n; rfl
  | cons o rest ih =>
    intro n
    simp only [fixOuts]
    rw [fixOut_idem vSpent n o, ih (n + 1)]
    simp

lemma fixTxAux_idem (vout : List FOut) (idx : Option (List Bool)) :
    fixTxAux false (fixTxAux false vout idx).1 idx = ((fixTxAux false vout idx).1, 0, 0) := by
  cases idx with
  | none => rfl
  | some vSpent =>
    simp only [fixTxAux]
    exact fixOuts_idem vSpent vout 0

/-- C8: running the spent-flag reconciliation in repair mode and running it
again on the repaired ledger (the authoritative index unchanged) finds zero
mismatches and zero value in question. -/
theorem claim_C8_fix_idempotent (w : List FTx) :
    (FixSpentCoins false (FixSpentCoins false w).1).2.1 = 0 ∧
      (FixSpentCoins false (FixSpentCoins false w).1).2.2 = 0 := by
  induction w with
  | nil => exact ⟨rfl, rfl⟩
  | cons tx rest ih =>
    constructor
    · show (fixTxAux false (fixTxAux false tx.vout tx.txindex).1 tx.txindex).2.1 +
        (FixSpentCoins false (FixSpentCoins false rest).1).2.1 = 0
      rw [fixTxAux_idem tx.vout tx.txindex, ih.1]
    · show (fixTxAux false (fixTxAux false tx.vout tx.txindex).1 tx.txindex).2.2 +
        (FixSpentCoins false (FixSpentCoins false rest).1).2.2 = 0
      rw [fixTxAux_idem tx.vout tx.txindex, ih.2]
      simp

/-! ### CWallet::Unlock

The crypter is an external collaborator: `decM pass rec` models the
`SetKeyFromPassphrase` + `Decrypt` sequence on one master-key record
(`none` when either fails, which in the source aborts the whole call), and
`ksU mk` models `CCryptoKeyStore::Unlock(vMasterKey)` (whether the decrypted
master key actually decrypts the stored key records). -/

/-- The vault as `Unlock` sees it: the lock state and `mapMasterKeys`. -/
structure Vault (MKRec : Type) where
  locked : Bool
  mapMasterKeys : List MKRec

/-- The `for (auto const& pMasterKey : mapMasterKeys)` loop of
`CWallet::Unlock`: a record that fails to derive or decrypt returns false
immediately; a record whose master key unlocks the keystore returns true and
unlocks the vault; otherwise the next record is tried. -/
def unlockGo {Pass MKRec MKey : Type} (decM : Pass → MKRec → Option MKey)
    (ksU : MKey → Bool) (v : Vault MKRec) (pass : Pass) :
    List MKRec → Bool × Vault MKRec
  | [] => (false, v)
  | r :: rs =>
    match decM pass r with
    | none => (false, v)
    | some mk =>
      if ksU mk then (true, { v with locked := false })
      else unlockGo decM ksU v pass rs

/-- `CWallet::Unlock`: `return false` when the vault is not locked, else the
master-key loop. -/
def Unlock {Pass MKRec MKey : Type} (decM : Pass → MKRec → Option MKey)
    (ksU : MKey → Bool) (v : Vault MKRec) (pass : Pass) : Bool × Vault MKRec :=
  if v.locked = false then (false, v)
  else unlockGo decM ksU v pass v.mapMasterKeys

/-- The success condition `Unlock` actually implements: scanning the records
in order, the first record that fails to decrypt ends the scan with failure;
a record that decrypts and unlocks the keystore is a success; a record that
decrypts but does not unlock is skipped. -/
def unlockSpec {Pass MKRec MKey : Type} (decM : Pass → MKRec → Option MKey)
    (ksU : MKey → Bool) (pass : Pass) : List MKRec → Bool
  | [] => false
  | r :: rs =>
    match decM pass r with
    | none => false
    | some mk => ksU mk || unlockSpec decM ksU pass rs

/-- C9, counterexample to the claim as stated: a locked vault with two
master-key records where the passphrase decrypts (and unlocks) only the
second record. `Unlock` returns false — the first record's decryption
failure aborts the loop before the matching record is tried — although some
stored record's master key decrypts under the passphrase. -/
theorem claim_C9_counterexample :
    (Unlock (fun (p : Nat) (r : Nat) => if p = 7 ∧ r = 2 then some 0 else none)
        (fun (_ : Nat) => true) ⟨true, [1, 2]⟩ 7).1 = false ∧
    (2 : Nat) ∈ ([1, 2] : List Nat) ∧
    (fun (p : Nat) (r : Nat) => if p = 7 ∧ r = 2 then some 0 else none) 7 2 = some 0 ∧
    (fun (_ : Nat) => true) (0 : Nat) = true ∧
    (Unlock (fun (p : Nat) (r : Nat) => if p = 7 ∧ r = 2 then some 0 else none)
        (fun (_ : Nat) => true) ⟨true, [1, 2]⟩ 7).2.locked = true := by
  refine ⟨by decide, by decide, by decide, by decide, by decide⟩

lemma unlockGo_spec {Pass MKRec MKey : Type} (decM : Pass → MKRec → Option MKey)
    (ksU : MKey → Bool) (v : Vault MKRec) (pass : Pass) :
    ∀ rs : List MKRec,
      (unlockGo decM ksU v pass rs).1 = unlockSpec decM ksU pass rs ∧
      ((unlockGo decM ksU v pass rs).1 = true →
        (unlockGo decM ksU v pass rs).2 = { v with locked := false }) ∧
      ((unlockGo decM ksU v pass rs).1 = false → (unlockGo decM ksU v pass rs).2 = v) := by
  intro rs
  induction rs with
  | nil => exact ⟨rfl, by intro h; exact absurd h (by simp [unlockGo]), fun _ => rfl⟩
  | cons r rest ih =>
    cases hd : decM pass r with
    | none =>
      refine ⟨?_, ?_, ?_⟩
      · simp only [unlockGo, unlockSpec, hd]
      · intro h
        simp only [unlockGo, hd] at h
        exact absurd h (by simp)
      · intro _
        simp only [unlockGo, hd]
    | some mk =>
      by_cases hks : ksU mk = true
      · refine ⟨?_, ?_, ?_⟩
        · simp [unlockGo, unlockSpec, hd, hks]
        · intro _
          simp only [unlockGo, hd, if_pos hks]
        · intro h
          simp only [unlockGo, hd, if_pos hks] at h
          exact absurd h (by simp)
      · refine ⟨?_, ?_, ?_⟩
        · simp only [unlockGo, unlockSpec, hd, if_neg hks]
          rw [ih.1]
          simp [hks]
        · intro h
          simp only [unlockGo, hd, if_neg hks] at h ⊢
          exact ih.2.1 h
        · intro h
          simp only [unlockGo, hd, if_neg hks] at h ⊢
          exact ih.2.2 h

/-- C9 (amended): on a locked vault, `Unlock` returns true exactly when,
scanning `mapMasterKeys` in order, every record before the first
keystore-unlocking record decrypts under the passphrase, and such a record
exists (`unlockSpec`); a record that fails to decrypt aborts the scan with
false, so later matching records are not tried. On success the vault is
unlocked; on failure the vault is unchanged (still locked) and a subsequent
`Unlock` with any passphrase accepted by this rule returns true. -/
theorem claim_C9_unlock_semantics {Pass MKRec MKey : Type}
    (decM : Pass → MKRec → Option MKey) (ksU : MKey → Bool) (v : Vault MKRec)
    (pass : Pass) (hlocked : v.locked = true) :
    ((Unlock decM ksU v pass).1 = unlockSpec decM ksU pass v.mapMasterKeys) ∧
    ((Unlock decM ksU v pass).1 = true → (Unlock decM ksU v pass).2.locked = false) ∧
    ((Unlock decM ksU v pass).1 = false → (Unlock decM ksU v pass).2 = v) ∧
    (∀ pass2, (Unlock decM ksU v pass).1 = false →
      (Unlock decM ksU (Unlock decM ksU v pass).2 pass2).1 =
        unlockSpec decM ksU pass2 v.mapMasterKeys) := by
  have hnotfree : ¬ v.locked = false := by simp [hlocked]
  have hgo := unlockGo_spec decM ksU v pass v.mapMasterKeys
  have hunlock : Unlock decM ksU v pass = unlockGo decM ksU v pass v.mapMasterKeys := by
    unfold Unlock
    rw [if_neg hnotfree]
  refine ⟨?_, ?_, ?_, ?_⟩
  · rw [hunlock]
    exact hgo.1
  · intro h
    rw [hunlock] at h ⊢
    rw [hgo.2.1 h]
  · intro h
    rw [hunlock] at h ⊢
    exact hgo.2.2 h
  · intro pass2 h
    rw [hunlock] at h ⊢
    rw [hgo.2.2 h]
    have hgo2 := unlockGo_spec decM ksU v pass2 v.mapMasterKeys
    unfold Unlock
    rw [if_neg hnotfree]
    exact hgo2.1

/-- C9 witness: a single-record vault where the passphrase 7 decrypts and
unlocks: the semantics theorem applied concretely. -/
theorem claim_C9_unlock_semantics_witness :
    ((Unlock (fun (p : Nat) (r : Nat) => if p = 7 ∧ r = 1 then some 0 else none)
        (fun (_ : Nat) => true) ⟨true, [1]⟩ 7).1 =
      unlockSpec (fun (p : Nat) (r : Nat) => if p = 7 ∧ r = 1 then some 0 else none)
        (fun (_ : Nat) => true) 7 [1]) ∧
    ((Unlock (fun (p : Nat) (r : Nat) => if p = 7 ∧ r = 1 then some 0 else none)
        (fun (_ : Nat) => true) ⟨true, [1]⟩ 7).1 = true →
      (Unlock (fun (p : Nat) (r : Nat) => if p = 7 ∧ r = 1 then some 0 else none)
        (fun (_ : Nat) => true) ⟨true, [1]⟩ 7).2.locked = false) ∧
    ((Unlock (fun (p : Nat) (r : Nat) => if p = 7 ∧ r = 1 then some 0 else none)
        (fun (_ : Nat) => true) ⟨true, [1]⟩ 7).1 = false →
      (Unlock (fun (p : Nat) (r : Nat) => if p = 7 ∧ r = 1 then some 0 else none)
        (fun (_ : Nat) => true) ⟨true, [1]⟩ 7).2 = ⟨true, [1]⟩) ∧
    (∀ pass2, (Unlock (fun (p : Nat) (r : Nat) => if p = 7 ∧ r = 1 then some 0 else none)
        (fun (_ : Nat) => true) ⟨true, [1]⟩ 7).1 = false →
      (Unlock (fun (p : Nat) (r : Nat) => if p = 7 ∧ r = 1 then some 0 else none)
        (fun (_ : Nat) => true)
        (Unlock (fun (p : Nat) (r : Nat) => if p = 7 ∧ r = 1 then some 0 else none)
          (fun (_ : Nat) => true) ⟨true, [1]⟩ 7).2 pass2).1 =
        unlockSpec (fun (p : Nat) (r : Nat) => if p = 7 ∧ r = 1 then some 0 else none)
          (fun (_ : Nat) => true) pass2 [1]) :=
  claim_C9_unlock_semantics (fun (p : Nat) (r : Nat) => if p = 7 ∧ r = 1 then some 0 else none)
    (fun (_ : Nat) => true) ⟨true, [1]⟩ 7 rfl

/-! ### GetStake and GetNewMint

`IsCoinStake()`, `GetBlocksToMaturity()`, `GetDepthInMainChain()` and
`CWallet::GetCredit` are collaborator results carried as fields of the
record. -/

/-- A wallet record as `GetStake`/`GetNewMint` read it. -/
structure MintTx where
  isCoinStake : Bool
  blocksToMaturity : Int
  depthInMainChain : Int
  credit : Int
deriving DecidableEq, Repr

/-- `CWallet::GetStake`: total credit of coinstake records still below
maturity and in the main chain. -/
def GetStake (w : List MintTx) : Int :=
  w.foldl
    (fun nTotal pcoin =>
      if pcoin.isCoinStake = true ∧ 0 < pcoin.blocksToMaturity ∧ 0 < pcoin.depthInMainChain
      then nTotal + pcoin.credit else nTotal)
    0

/-- `CWallet::GetNewMint`: total credit of coinstake records still below
maturity and in the main chain (the same scan as `GetStake`, transcribed
from its own body). -/
def GetNewMint (w : List MintTx) : Int :=
  w.foldl
    (fun nTotal pcoin =>
      if pcoin.isCoinStake = true ∧ 0 < pcoin.blocksToMaturity ∧ 0 < pcoin.depthInMainChain
      then nTotal + pcoin.credit else nTotal)
    0

/-- C10: `GetStake` and `GetNewMint` are extensionally equal — both sum the
wallet credit of coinstake transactions below maturity and in the main
chain, so the two balance views always report the same number. -/
theorem claim_C10_stake_eq_newmint : ∀ w : List MintTx, GetStake w = GetNewMint w :=
  fun _ => rfl
